import Mathlib

/-!
Verification of the Oroboro event-driven simulation framework.

Part 1 embeds the scheduling loop of `Loop.py`: handles, the CPython
`heapq` algorithm used for the `scheduled` queue (`Handle.__lt__` compares
only the `when` field), and `BaseLoop.run_once` with its stratified
normal/observer execution order.

Part 2 embeds the task layer of `oroboro.py`: events, reasons, tasks and
the `Oroboro` session object.
-/

namespace Oroboro

/-- Simulation time.  The test-suite drives the loop with integer times. -/
abbrev Time := Int

/-- Kind of a queue entry: `Handle` (normal) or the subclass `ObserverHandle`. -/
inductive HKind where
  | normal
  | observer
deriving DecidableEq, Repr

/-- Oroboro-layer callbacks that the loop schedules but whose effect lives in
the task layer (`Event.post` bound methods, `Task.kicker`, `Timeout.callback`).
At the loop layer they are opaque: they never directly execute other handles. -/
inductive OroTag where
  | postEvent (eid : Nat)
  | kicker (tid : Nat)
  | timeoutCb (rid : Nat)
deriving DecidableEq, Repr

/-- A callback program: the loop-visible actions a callback may perform.
Each constructor carries the body scheduled (for `call_*`) and the rest of
the callback's own actions. -/
inductive Cb where
  | nil
  | callAt (t : Time) (body : Cb) (rest : Cb)
  | callLater (d : Time) (body : Cb) (rest : Cb)
  | callObserverAt (t : Time) (body : Cb) (rest : Cb)
  | callObserverLater (d : Time) (body : Cb) (rest : Cb)
  | callNow (body : Cb) (rest : Cb)
  | callObserverNow (body : Cb) (rest : Cb)
  | cancelH (hid : Nat) (rest : Cb)
  | oro (tag : OroTag) (rest : Cb)
deriving DecidableEq, Repr

/-- A queue entry of `Loop.py`.  `when` is the scheduled time, `id` the value
of the global `Handle.handleCounter` at creation.  The mutable `_cancelled`
flag is modelled by the loop state's set of cancelled ids, since Python
handles are shared mutable objects. -/
structure Handle where
  when : Time
  kind : HKind
  cb : Cb
  id : Nat
deriving DecidableEq, Repr

instance : Inhabited Handle := ⟨⟨0, .normal, .nil, 0⟩⟩

/-- `Handle.__lt__`: comparison by `when` only; the id takes no part. -/
def hlt (a b : Handle) : Bool := a.when < b.when

/-! ### CPython `heapq` (as used on `self.scheduled`)

`heapq.heappush` appends then calls `_siftdown(heap, 0, len-1)`;
`heapq.heappop` removes the last element, moves it to the root and calls
`_siftup(heap, 0)`.  Comparison between handles is `Handle.__lt__`. -/

/-- CPython `heapq._siftdown(heap, startpos, pos)` with `newitem = heap[pos]`
read at entry: bubble `newitem` up towards `startpos` while it is `<` its
parent.  An out-of-range parent read (impossible in the in-bound uses)
terminates the walk. -/
def siftdownAux (heap : List Handle) (startpos pos : Nat) (newitem : Handle) :
    List Handle :=
  if h : startpos < pos then
    if hlt newitem (heap.getD ((pos - 1) / 2) default) then
      siftdownAux (heap.set pos (heap.getD ((pos - 1) / 2) default))
        startpos ((pos - 1) / 2) newitem
    else
      heap.set pos newitem
  else
    heap.set pos newitem
termination_by pos
decreasing_by omega

/-- CPython `heapq._siftup(heap, pos)` with `newitem = heap[pos]` read at
entry: move the hole down to a leaf, always pulling up the smaller child
(`rightpos` wins ties, as in `not heap[childpos] < heap[rightpos]`), then
bubble `newitem` up from the leaf with `_siftdown`. -/
def siftupAux (heap : List Handle) (pos : Nat) (newitem : Handle) :
    List Handle :=
  if h1 : 2 * pos + 1 < heap.length then
    if h2 : 2 * pos + 2 < heap.length then
      if hlt (heap.get ⟨2 * pos + 1, h1⟩) (heap.get ⟨2 * pos + 2, h2⟩) then
        siftupAux (heap.set pos (heap.get ⟨2 * pos + 1, h1⟩)) (2 * pos + 1) newitem
      else
        siftupAux (heap.set pos (heap.get ⟨2 * pos + 2, h2⟩)) (2 * pos + 2) newitem
    else
      siftupAux (heap.set pos (heap.get ⟨2 * pos + 1, h1⟩)) (2 * pos + 1) newitem
  else
    siftdownAux (heap.set pos newitem) 0 pos newitem
termination_by heap.length - pos
decreasing_by
  · simp only [List.length_set]; omega
  · simp only [List.length_set]; omega
  · simp only [List.length_set]; omega

/-- CPython `heapq.heappush`. -/
def heappush (heap : List Handle) (item : Handle) : List Handle :=
  siftdownAux (heap ++ [item]) 0 heap.length item

/-- CPython `heapq.heappop`: returns the popped item and the remaining heap,
or `none` on the empty heap (Python raises `IndexError`). -/
def heappop (heap : List Handle) : Option (Handle × List Handle) :=
  match heap.getLast? with
  | none => none
  | some lastelt =>
    match heap.dropLast with
    | [] => some (lastelt, [])
    | _ :: rs => some (heap.headI, siftupAux (lastelt :: rs) 0 lastelt)

theorem siftdownAux_length (heap : List Handle) (s p : Nat) (item : Handle) :
    (siftdownAux heap s p item).length = heap.length := by
  induction p using Nat.strong_induction_on generalizing heap with
  | _ p ih =>
    rw [siftdownAux]
    split
    · split
      · rw [ih ((p - 1) / 2) (by omega)]; simp
      · simp
    · simp

theorem siftupAux_length_aux (fuel : Nat) :
    ∀ (heap : List Handle) (p : Nat) (item : Handle), heap.length - p ≤ fuel →
      (siftupAux heap p item).length = heap.length := by
  induction fuel with
  | zero =>
    intro heap p item hf
    rw [siftupAux]
    split
    · omega
    · rw [siftdownAux_length]; simp
  | succ fuel ih =>
    intro heap p item hf
    rw [siftupAux]
    split
    · split
      · split
        · rw [ih] <;> simp <;> omega
        · rw [ih] <;> simp <;> omega
      · rw [ih] <;> simp <;> omega
    · rw [siftdownAux_length]; simp

theorem siftupAux_length (heap : List Handle) (p : Nat) (item : Handle) :
    (siftupAux heap p item).length = heap.length :=
  siftupAux_length_aux heap.length heap p item (by omega)

theorem heappop_length {heap rest : List Handle} {x : Handle}
    (h : heappop heap = some (x, rest)) : rest.length + 1 = heap.length := by
  unfold heappop at h
  cases hl : heap.getLast? with
  | none => rw [hl] at h; exact absurd h (by simp)
  | some lastelt =>
    have hne : heap ≠ [] := by
      intro hh; rw [hh] at hl; simp at hl
    have hlen : heap.dropLast.length + 1 = heap.length := by
      rw [List.length_dropLast]
      have := List.length_pos.mpr hne
      omega
    rw [hl] at h
    cases hd : heap.dropLast with
    | nil =>
      rw [hd] at h
      simp only [Option.some.injEq, Prod.mk.injEq] at h
      rw [← h.2, ← hlen, hd]
    | cons r rs =>
      rw [hd] at h
      simp only [Option.some.injEq, Prod.mk.injEq] at h
      rw [← h.2, siftupAux_length]
      rw [hd] at hlen
      simpa using hlen

/-- Repeatedly `heappop` until the heap is empty: the order in which
`BaseLoop.run_once` would drain the scheduled queue. -/
def popAll (heap : List Handle) : List Handle :=
  match hp : heappop heap with
  | none => []
  | some (x, rest) => x :: popAll rest
termination_by heap.length
decreasing_by
  have := heappop_length hp
  omega

/-! ### Verification of the heap used for `self.scheduled`

A binary heap ordered by `Handle.__lt__`, i.e. by `when` alone. -/

/-- The sort key at index `i` of the heap array (out of range: a dummy). -/
def wkey (l : List Handle) (i : Nat) : Time := (l.getD i default).when

/-- The binary-heap property with respect to `Handle.__lt__`: every non-root
entry is `≥` (by `when`) the entry at its parent index `(i-1)/2`. -/
def IsHeap (l : List Handle) : Prop :=
  ∀ i, i < l.length → 0 < i → wkey l ((i - 1) / 2) ≤ wkey l i

instance decIsHeap (l : List Handle) : Decidable (IsHeap l) :=
  decidable_of_iff
    (∀ i, i < l.length → 0 < i → wkey l ((i - 1) / 2) ≤ wkey l i) Iff.rfl

theorem wkey_eq_get (l : List Handle) (i : Nat) (h : i < l.length) :
    wkey l i = (l.get ⟨i, h⟩).when := by
  simp [wkey, List.getD_eq_getElem?_getD, List.getElem?_eq_getElem h]

theorem wkey_set_self {l : List Handle} {i : Nat} (a : Handle)
    (h : i < l.length) : wkey (l.set i a) i = a.when := by
  simp [wkey, List.getD_eq_getElem?_getD, List.getElem?_set_self h]

theorem wkey_set_ne {l : List Handle} {i j : Nat} (a : Handle)
    (h : i ≠ j) : wkey (l.set i a) j = wkey l j := by
  simp [wkey, List.getD_eq_getElem?_getD, List.getElem?_set_ne h]

theorem wkey_append_left {l l2 : List Handle} {i : Nat} (h : i < l.length) :
    wkey (l ++ l2) i = wkey l i := by
  simp [wkey, List.getD_eq_getElem?_getD, List.getElem?_append, h]

/-- In a heap the root is minimal (by `when`). -/
theorem isHeap_root_le {l : List Handle} (hl : IsHeap l) :
    ∀ i, i < l.length → wkey l 0 ≤ wkey l i := by
  intro i
  induction i using Nat.strong_induction_on with
  | _ i ih =>
    intro hi
    rcases Nat.eq_zero_or_pos i with h0 | h0
    · subst h0; exact le_refl _
    · exact le_trans (ih ((i - 1) / 2) (by omega) (by omega)) (hl i hi h0)

theorem isHeap_root_le_mem {l : List Handle} (hl : IsHeap l) {y : Handle}
    (hy : y ∈ l) : wkey l 0 ≤ y.when := by
  rcases List.mem_iff_getElem.mp hy with ⟨n, hn, rfl⟩
  rw [show l[n] = l.get ⟨n, hn⟩ from rfl, ← wkey_eq_get]
  exact isHeap_root_le hl n hn

/-- Taking out the value at a set position is a permutation. -/
theorem set_perm_cons (l : List Handle) (i : Nat) (a : Handle)
    (h : i < l.length) :
    (l.getD i default :: l.set i a).Perm (a :: l) := by
  induction l generalizing i with
  | nil => simp at h
  | cons x t ihl =>
    cases i with
    | zero => simpa using List.Perm.swap a x t
    | succ n =>
      have hn : n < t.length := by simpa using h
      have step1 : ((x :: t).getD (n + 1) default :: (x :: t).set (n + 1) a) =
          (t.getD n default :: x :: t.set n a) := by simp
      rw [step1]
      exact ((List.Perm.swap x (t.getD n default) (t.set n a)).trans
        ((ihl n hn).cons x)).trans (List.Perm.swap a x t)

theorem set_set_perm (l : List Handle) (i j : Nat) (x : Handle)
    (hi : i < l.length) (hj : j < l.length) (hne : i ≠ j) :
    ((l.set i (l.getD j default)).set j x).Perm (l.set i x) := by
  have hj2 : j < (l.set i (l.getD j default)).length := by simpa using hj
  have A := set_perm_cons (l.set i (l.getD j default)) j x hj2
  rw [List.getD_eq_getElem?_getD, List.getElem?_set_ne hne,
    ← List.getD_eq_getElem?_getD] at A
  have B := set_perm_cons l i (l.getD j default) hi
  have C := set_perm_cons l i x hi
  have chain :
      (l.getD i default :: l.getD j default ::
        (l.set i (l.getD j default)).set j x).Perm
      (l.getD i default :: l.getD j default :: l.set i x) :=
    (((((A.cons (l.getD i default)).trans
      (List.Perm.swap x (l.getD i default)
        (l.set i (l.getD j default)))).trans (B.cons x)).trans
      (List.Perm.swap (l.getD j default) x l)).trans
      (C.symm.cons (l.getD j default))).trans
      (List.Perm.swap (l.getD i default) (l.getD j default) (l.set i x))
  exact (chain.cons_inv).cons_inv

theorem popAll_eq (heap : List Handle) :
    popAll heap = match heappop heap with
      | none => []
      | some p => p.1 :: popAll p.2 := by
  rw [popAll]
  split
  · next heq => rw [heq]
  · next x rest heq => rw [heq]

theorem getD_eq_get (l : List Handle) (i : Nat) (h : i < l.length) :
    l.getD i default = l.get ⟨i, h⟩ := by
  simp [List.getD_eq_getElem?_getD, List.getElem?_eq_getElem h]

theorem set_set_perm_get (l : List Handle) (i j : Nat) (x : Handle)
    (hi : i < l.length) (hj : j < l.length) (hne : i ≠ j) :
    ((l.set i (l.get ⟨j, hj⟩)).set j x).Perm (l.set i x) := by
  have := set_set_perm l i j x hi hj hne
  rwa [getD_eq_get l j hj] at this

theorem siftdownAux_perm (p : Nat) :
    ∀ (l : List Handle) (s : Nat) (item : Handle), p < l.length →
      (siftdownAux l s p item).Perm (l.set p item) := by
  induction p using Nat.strong_induction_on with
  | _ p ih =>
    intro l s item hp
    rw [siftdownAux]
    split
    · next h0 =>
      split
      · next hc =>
        have hq : (p - 1) / 2 < (l.set p (l.getD ((p - 1) / 2) default)).length := by
          simp; omega
        exact (ih ((p - 1) / 2) (by omega) _ s item hq).trans
          (set_set_perm l p ((p - 1) / 2) item hp (by omega) (by omega))
      · exact List.Perm.refl _
    · exact List.Perm.refl _

theorem siftupAux_perm_aux (fuel : Nat) :
    ∀ (l : List Handle) (p : Nat) (item : Handle), l.length - p ≤ fuel →
      p < l.length → (siftupAux l p item).Perm (l.set p item) := by
  induction fuel with
  | zero =>
    intro l p item hf hp
    rw [siftupAux]
    split
    · omega
    · have := siftdownAux_perm p (l.set p item) 0 item (by simp; omega)
      rwa [List.set_set] at this
  | succ fuel ih =>
    intro l p item hf hp
    rw [siftupAux]
    split
    · next h1 =>
      split
      · next h2 =>
        split
        · exact (ih _ _ _ (by simp; omega) (by simp; omega)).trans
            (set_set_perm_get l p (2 * p + 1) item hp h1 (by omega))
        · exact (ih _ _ _ (by simp; omega) (by simp; omega)).trans
            (set_set_perm_get l p (2 * p + 2) item hp h2 (by omega))
      · exact (ih _ _ _ (by simp; omega) (by simp; omega)).trans
          (set_set_perm_get l p (2 * p + 1) item hp h1 (by omega))
    · have := siftdownAux_perm p (l.set p item) 0 item (by simp; omega)
      rwa [List.set_set] at this

theorem siftupAux_perm (l : List Handle) (p : Nat) (item : Handle)
    (hp : p < l.length) : (siftupAux l p item).Perm (l.set p item) :=
  siftupAux_perm_aux l.length l p item (by omega) hp

theorem heappush_perm (l : List Handle) (item : Handle) :
    (heappush l item).Perm (item :: l) := by
  unfold heappush
  have h1 : l.length < (l ++ [item]).length := by simp
  refine (siftdownAux_perm l.length (l ++ [item]) 0 item h1).trans ?_
  have h2 : (l ++ [item]).set l.length item = l ++ [item] := by
    apply List.ext_getElem
    · simp
    · intro i hi1 hi2
      rw [List.getElem_set]
      split
      · next he => subst he; rw [List.getElem_append]; simp
      · rfl
  rw [h2]
  exact List.perm_append_singleton item l

/-- Bubbling `item` up from position `p` (CPython `_siftdown` with
`startpos = 0`) restores the heap property, provided the array is a heap
at every edge not entering `p`, `item` is below `p`'s children, and `p`'s
children are above `p`'s parent. -/
theorem siftdownAux_isHeap (p : Nat) :
    ∀ (l : List Handle) (item : Handle), p < l.length →
    (∀ i, i < l.length → 0 < i → i ≠ p →
      wkey l ((i - 1) / 2) ≤ wkey l i) →
    (∀ c, c < l.length → (c - 1) / 2 = p → 0 < c →
      item.when ≤ wkey l c) →
    (∀ c, c < l.length → (c - 1) / 2 = p → 0 < c → 0 < p →
      wkey l ((p - 1) / 2) ≤ wkey l c) →
    IsHeap (siftdownAux l 0 p item) := by
  induction p using Nat.strong_induction_on with
  | _ p ih =>
    intro l item hp hedge hchild hcross
    rw [siftdownAux]
    split
    · next h0 =>
      split
      · next hc =>
        have hc' : item.when < wkey l ((p - 1) / 2) := by
          simpa [hlt, wkey] using hc
        apply ih ((p - 1) / 2) (by omega) _ item (by simp; omega)
        · -- edges away from the new hole (p-1)/2 hold
          intro i hi h0i hiq
          simp only [List.length_set] at hi
          by_cases hip : i = p
          · subst i
            rw [wkey_set_ne _ (by omega : p ≠ (p - 1) / 2),
              wkey_set_self _ hp]
            exact le_refl _
          · rw [wkey_set_ne _ (fun he => hip he.symm)]
            by_cases hpar : (i - 1) / 2 = p
            · rw [hpar, wkey_set_self _ hp]
              exact hcross i hi hpar h0i h0
            · rw [wkey_set_ne _ (fun he => hpar he.symm)]
              exact hedge i hi h0i hip
        · -- item is below the children of the new hole
          intro c hc2 hcq h0c
          simp only [List.length_set] at hc2
          by_cases hcp : c = p
          · subst c
            rw [wkey_set_self _ hp]
            exact le_of_lt hc'
          · rw [wkey_set_ne _ (fun he => hcp he.symm)]
            have h1 := hedge c hc2 h0c hcp
            rw [hcq] at h1
            exact le_trans (le_of_lt hc') h1
        · -- the children of the new hole are above its parent
          intro c hc2 hcq h0c h0q
          simp only [List.length_set] at hc2
          rw [wkey_set_ne _ (by omega : p ≠ ((p - 1) / 2 - 1) / 2)]
          by_cases hcp : c = p
          · subst c
            rw [wkey_set_self _ hp]
            exact hedge ((p - 1) / 2) (by omega) h0q (by omega)
          · rw [wkey_set_ne _ (fun he => hcp he.symm)]
            have h1 := hedge c hc2 h0c hcp
            rw [hcq] at h1
            exact le_trans (hedge ((p - 1) / 2) (by omega) h0q (by omega)) h1
      · next hc =>
        have hc' : wkey l ((p - 1) / 2) ≤ item.when := by
          have := (by simpa [hlt] using hc :
            ¬ item.when < (l.getD ((p - 1) / 2) default).when)
          exact not_lt.mp this
        intro i hi h0i
        simp only [List.length_set] at hi
        by_cases hip : i = p
        · subst i
          rw [wkey_set_ne _ (by omega : p ≠ (p - 1) / 2),
            wkey_set_self _ hp]
          exact hc'
        · rw [wkey_set_ne _ (fun he => hip he.symm)]
          by_cases hpar : (i - 1) / 2 = p
          · rw [hpar, wkey_set_self _ hp]
            exact hchild i hi hpar h0i
          · rw [wkey_set_ne _ (fun he => hpar he.symm)]
            exact hedge i hi h0i hip
    · next h0 =>
      have hp0 : p = 0 := by omega
      subst hp0
      intro i hi h0i
      simp only [List.length_set] at hi
      by_cases hpar : (i - 1) / 2 = 0
      · rw [hpar, wkey_set_self _ hp, wkey_set_ne _ (by omega : (0:Nat) ≠ i)]
        exact hchild i hi hpar h0i
      · rw [wkey_set_ne _ (fun he => hpar he.symm),
          wkey_set_ne _ (by omega : (0:Nat) ≠ i)]
        exact hedge i hi h0i (by omega)

/-- Descending the hole from `p` into its child `c` preserves the
away-from-hole edges, provided `c` was the smaller (chosen) child. -/
theorem siftup_step_edges (l : List Handle) (p c : Nat) (hp : p < l.length)
    (hcl : c < l.length) (hcp : (c - 1) / 2 = p) (h0c : 0 < c)
    (hsm : ∀ s, s < l.length → 0 < s → (s - 1) / 2 = p → s ≠ c →
      wkey l c ≤ wkey l s)
    (hedge : ∀ i, i < l.length → 0 < i → i ≠ p → (i - 1) / 2 ≠ p →
      wkey l ((i - 1) / 2) ≤ wkey l i)
    (hcross : ∀ c2, c2 < l.length → (c2 - 1) / 2 = p → 0 < c2 → 0 < p →
      wkey l ((p - 1) / 2) ≤ wkey l c2) :
    ∀ i, i < (l.set p (l.get ⟨c, hcl⟩)).length → 0 < i → i ≠ c →
      (i - 1) / 2 ≠ c →
      wkey (l.set p (l.get ⟨c, hcl⟩)) ((i - 1) / 2) ≤
        wkey (l.set p (l.get ⟨c, hcl⟩)) i := by
  intro i hi h0i hic hpari
  simp only [List.length_set] at hi
  have hpc : p < c := by omega
  by_cases hip : i = p
  · subst i
    rw [wkey_set_ne _ (by omega : p ≠ (p - 1) / 2), wkey_set_self _ hp]
    rw [← wkey_eq_get l c hcl]
    exact hcross c hcl hcp h0c h0i
  · by_cases hpari2 : (i - 1) / 2 = p
    · rw [hpari2, wkey_set_self _ hp, wkey_set_ne _ (fun he => hip he.symm)]
      rw [← wkey_eq_get l c hcl]
      exact hsm i hi h0i hpari2 hic
    · rw [wkey_set_ne _ (fun he => hpari2 he.symm),
        wkey_set_ne _ (fun he => hip he.symm)]
      exact hedge i hi h0i hip hpari2

/-- Descending the hole from `p` into its child `c` re-establishes the
cross edges over the new hole. -/
theorem siftup_step_cross (l : List Handle) (p c : Nat) (hp : p < l.length)
    (hcl : c < l.length) (hcp : (c - 1) / 2 = p) (h0c : 0 < c)
    (hedge : ∀ i, i < l.length → 0 < i → i ≠ p → (i - 1) / 2 ≠ p →
      wkey l ((i - 1) / 2) ≤ wkey l i) :
    ∀ c2, c2 < (l.set p (l.get ⟨c, hcl⟩)).length → (c2 - 1) / 2 = c →
      0 < c2 → 0 < c →
      wkey (l.set p (l.get ⟨c, hcl⟩)) ((c - 1) / 2) ≤
        wkey (l.set p (l.get ⟨c, hcl⟩)) c2 := by
  intro c2 hc2 hpc2 h0c2 _
  simp only [List.length_set] at hc2
  have hpc : p < c := by omega
  have hcc2 : c < c2 := by omega
  rw [hcp, wkey_set_self _ hp, wkey_set_ne _ (by omega : p ≠ c2)]
  rw [← wkey_eq_get l c hcl]
  have h1 := hedge c2 hc2 (by omega) (by omega : c2 ≠ p)
    (by rw [hpc2]; omega)
  rw [hpc2] at h1
  exact h1

/-- At a leaf hole, placing `item` and bubbling it up restores the heap. -/
theorem siftup_leaf (l : List Handle) (p : Nat) (item : Handle)
    (hp : p < l.length) (h1 : ¬ 2 * p + 1 < l.length)
    (hedge : ∀ i, i < l.length → 0 < i → i ≠ p → (i - 1) / 2 ≠ p →
      wkey l ((i - 1) / 2) ≤ wkey l i) :
    IsHeap (siftdownAux (l.set p item) 0 p item) := by
  apply siftdownAux_isHeap p (l.set p item) item (by simp; omega)
  · intro i hi h0i hip
    simp only [List.length_set] at hi
    have hpari : (i - 1) / 2 ≠ p := by omega
    rw [wkey_set_ne _ (fun he => hpari he.symm),
      wkey_set_ne _ (fun he => hip he.symm)]
    exact hedge i hi h0i hip hpari
  · intro ch hch hchp h0ch
    simp only [List.length_set] at hch
    exact absurd hchp (by omega)
  · intro ch hch hchp h0ch h0p
    simp only [List.length_set] at hch
    exact absurd hchp (by omega)

/-- CPython `_siftup` restores the heap property when the array is a heap
except at the hole `pos` (children of the hole exceed the hole's parent). -/
theorem siftupAux_isHeap_aux (fuel : Nat) :
    ∀ (l : List Handle) (p : Nat) (item : Handle), l.length - p ≤ fuel →
    p < l.length →
    (∀ i, i < l.length → 0 < i → i ≠ p → (i - 1) / 2 ≠ p →
      wkey l ((i - 1) / 2) ≤ wkey l i) →
    (∀ c, c < l.length → (c - 1) / 2 = p → 0 < c → 0 < p →
      wkey l ((p - 1) / 2) ≤ wkey l c) →
    IsHeap (siftupAux l p item) := by
  induction fuel with
  | zero =>
    intro l p item hf hp hedge hcross
    rw [siftupAux]
    split
    · omega
    · next h1 => exact siftup_leaf l p item hp h1 hedge
  | succ fuel ih =>
    intro l p item hf hp hedge hcross
    rw [siftupAux]
    split
    · next h1 =>
      split
      · next h2 =>
        split
        · next hcmp =>
          refine ih _ _ _ ?_ ?_ ?_ ?_
          · simp only [List.length_set]; omega
          · simp only [List.length_set]; omega
          · apply siftup_step_edges l p (2 * p + 1) hp h1 (by omega) (by omega)
            · intro s hs h0s hsp hsc
              have hs2 : s = 2 * p + 2 := by omega
              subst s
              have hw : wkey l (2 * p + 1) < wkey l (2 * p + 2) := by
                rw [wkey_eq_get l _ h1, wkey_eq_get l _ h2]
                simpa [hlt] using hcmp
              exact le_of_lt hw
            · exact hedge
            · exact hcross
          · exact siftup_step_cross l p (2 * p + 1) hp h1 (by omega)
              (by omega) hedge
        · next hcmp =>
          refine ih _ _ _ ?_ ?_ ?_ ?_
          · simp only [List.length_set]; omega
          · simp only [List.length_set]; omega
          · apply siftup_step_edges l p (2 * p + 2) hp h2 (by omega) (by omega)
            · intro s hs h0s hsp hsc
              have hs2 : s = 2 * p + 1 := by omega
              subst s
              have hw : ¬ wkey l (2 * p + 1) < wkey l (2 * p + 2) := by
                rw [wkey_eq_get l _ h1, wkey_eq_get l _ h2]
                simpa [hlt] using hcmp
              exact not_lt.mp hw
            · exact hedge
            · exact hcross
          · exact siftup_step_cross l p (2 * p + 2) hp h2 (by omega)
              (by omega) hedge
      · next h2 =>
        refine ih _ _ _ ?_ ?_ ?_ ?_
        · simp only [List.length_set]; omega
        · simp only [List.length_set]; omega
        · apply siftup_step_edges l p (2 * p + 1) hp h1 (by omega) (by omega)
          · intro s hs h0s hsp hsc
            have : False := by omega
            exact this.elim
          · exact hedge
          · exact hcross
        · exact siftup_step_cross l p (2 * p + 1) hp h1 (by omega)
            (by omega) hedge
    · next h1 => exact siftup_leaf l p item hp h1 hedge

theorem siftupAux_isHeap (l : List Handle) (p : Nat) (item : Handle)
    (hp : p < l.length)
    (hedge : ∀ i, i < l.length → 0 < i → i ≠ p → (i - 1) / 2 ≠ p →
      wkey l ((i - 1) / 2) ≤ wkey l i)
    (hcross : ∀ c, c < l.length → (c - 1) / 2 = p → 0 < c → 0 < p →
      wkey l ((p - 1) / 2) ≤ wkey l c) :
    IsHeap (siftupAux l p item) :=
  siftupAux_isHeap_aux l.length l p item (by omega) hp hedge hcross

/-- `heappush` preserves the heap property. -/
theorem heappush_isHeap {l : List Handle} (hl : IsHeap l) (item : Handle) :
    IsHeap (heappush l item) := by
  unfold heappush
  apply siftdownAux_isHeap l.length (l ++ [item]) item (by simp)
  · intro i hi h0i hip
    simp only [List.length_append, List.length_cons, List.length_nil] at hi
    have hi2 : i < l.length := by omega
    rw [wkey_append_left hi2, wkey_append_left (by omega : (i - 1) / 2 < l.length)]
    exact hl i hi2 h0i
  · intro c hc hcp h0c
    simp only [List.length_append, List.length_cons, List.length_nil] at hc
    exact absurd hcp (by omega)
  · intro c hc hcp h0c h0p
    simp only [List.length_append, List.length_cons, List.length_nil] at hc
    exact absurd hcp (by omega)

/-- `heappop` on a non-empty heap returns the root — a minimal element by
`when` — and a heap of the remaining elements. -/
theorem heappop_spec {l rest : List Handle} {x : Handle}
    (hl : IsHeap l) (h : heappop l = some (x, rest)) :
    IsHeap rest ∧ (x :: rest).Perm l ∧ ∀ y ∈ l, x.when ≤ y.when := by
  unfold heappop at h
  cases hgl : l.getLast? with
  | none => rw [hgl] at h; exact absurd h (by simp)
  | some lastelt =>
    rw [hgl] at h
    obtain ⟨ys, hys⟩ := List.getLast?_eq_some_iff.mp hgl
    have hdl : l.dropLast = ys := by rw [hys, List.dropLast_concat]
    cases hd : l.dropLast with
    | nil =>
      rw [hd] at h
      simp only [Option.some.injEq, Prod.mk.injEq] at h
      obtain ⟨hx, hrest⟩ := h
      have hys0 : ys = [] := by rw [← hdl, hd]
      subst hys0
      simp only [List.nil_append] at hys
      subst hys
      refine ⟨?_, ?_, ?_⟩
      · intro i hi h0i
        rw [← hrest] at hi
        simp at hi
      · rw [← hrest, ← hx]
      · intro y hy
        simp only [List.mem_singleton] at hy
        subst hy
        rw [← hx]
    | cons r rs =>
      rw [hd] at h
      simp only [Option.some.injEq, Prod.mk.injEq] at h
      obtain ⟨hx, hrest⟩ := h
      have hys2 : ys = r :: rs := by rw [← hdl, hd]
      subst hys2
      -- l = r :: (rs ++ [lastelt])
      have hl2 : l = r :: (rs ++ [lastelt]) := by simpa using hys
      have hlen : l.length = rs.length + 2 := by rw [hl2]; simp
      -- values of the shrunk array agree with `l` away from the root
      have hagree : ∀ j, 0 < j → j < rs.length + 1 →
          wkey (lastelt :: rs) j = wkey l j := by
        intro j h0j hj
        obtain ⟨j', rfl⟩ : ∃ j', j = j' + 1 := ⟨j - 1, by omega⟩
        rw [hl2]
        simp only [wkey, List.getD_cons_succ]
        have hj' : j' < rs.length := by omega
        rw [List.getD_eq_getElem?_getD, List.getD_eq_getElem?_getD,
          List.getElem?_append, if_pos hj']
      have hlen1 : (lastelt :: rs).length = rs.length + 1 := by simp
      refine ⟨?_, ?_, ?_⟩
      · rw [← hrest]
        apply siftupAux_isHeap _ 0 lastelt (by simp)
        · intro i hi h0i hip hpari
          rw [hlen1] at hi
          rw [hagree i h0i hi, hagree ((i - 1) / 2) (by omega) (by omega)]
          exact hl i (by omega) h0i
        · intro c hc hcp h0c h0p
          exact absurd h0p (by omega)
      · have p1 : rest.Perm (lastelt :: rs) := by
          rw [← hrest]
          have := siftupAux_perm (lastelt :: rs) 0 lastelt (by simp)
          rwa [List.set_cons_zero] at this
        have hxr : x = r := by
          rw [← hx, hl2]
          rfl
        rw [hxr, hl2]
        exact (p1.cons r).trans
          ((List.perm_append_singleton lastelt rs).symm.cons r)
      · intro y hy
        have hx0 : wkey l 0 = x.when := by
          rw [← hx, hl2]
          simp [wkey]
        rw [← hx0]
        exact isHeap_root_le_mem hl hy

/-- Handles are popped in non-decreasing `when` order, and every popped
handle was in the heap. -/
theorem popAll_spec (n : Nat) :
    ∀ (l : List Handle), l.length ≤ n → IsHeap l →
      ((popAll l).Pairwise fun a b => a.when ≤ b.when) ∧
      ∀ y ∈ popAll l, y ∈ l := by
  induction n with
  | zero =>
    intro l hn hl
    have h0 : l = [] := List.length_eq_zero.mp (by omega)
    subst h0
    rw [popAll_eq]
    simp [heappop]
  | succ n ih =>
    intro l hn hl
    rw [popAll_eq]
    cases hp : heappop l with
    | none => simp
    | some p =>
      obtain ⟨x, rest⟩ := p
      obtain ⟨hheap, hperm, hmin⟩ := heappop_spec hl hp
      have hlen := heappop_length hp
      obtain ⟨ihp, ihm⟩ := ih rest (by omega) hheap
      show ((x :: popAll rest).Pairwise fun a b => a.when ≤ b.when) ∧
        ∀ y ∈ x :: popAll rest, y ∈ l
      constructor
      · refine List.Pairwise.cons ?_ ihp
        intro y hy
        exact hmin y (hperm.subset (List.mem_cons_of_mem x (ihm y hy)))
      · intro y hy
        rcases List.mem_cons.mp hy with rfl | hy2
        · exact hperm.subset (List.mem_cons_self y rest)
        · exact hperm.subset (List.mem_cons_of_mem x (ihm y hy2))

/-! ### The loop state and its operations (`BaseLoop`)

The mutable `Handle._cancelled` flags are modelled by the set
`cancelledIds` in the state (Python handles are shared mutable objects,
so `h.cancel()` is visible from every queue holding `h`). -/

structure LoopState where
  now : Time
  scheduled : List Handle
  ready : List Handle
  observers : List Handle
  nextId : Nat
  cancelledIds : List Nat
deriving DecidableEq, Repr

/-- `BaseLoop.__init__` (with `Handle.handleCounter` at 0). -/
def initLoop : LoopState := ⟨0, [], [], [], 0, []⟩

/-- `BaseLoop.call_at`: push a normal handle on the `scheduled` heap. -/
def call_at (t : Time) (cb : Cb) (s : LoopState) : LoopState :=
  { s with scheduled := heappush s.scheduled ⟨t, .normal, cb, s.nextId⟩,
           nextId := s.nextId + 1 }

/-- `BaseLoop.call_later`. -/
def call_later (d : Time) (cb : Cb) (s : LoopState) : LoopState :=
  call_at (s.now + d) cb s

/-- `BaseLoop.call_observer_at`: push an `ObserverHandle`. -/
def call_observer_at (t : Time) (cb : Cb) (s : LoopState) : LoopState :=
  { s with scheduled := heappush s.scheduled ⟨t, .observer, cb, s.nextId⟩,
           nextId := s.nextId + 1 }

/-- `BaseLoop.call_observer_later`. -/
def call_observer_later (d : Time) (cb : Cb) (s : LoopState) : LoopState :=
  call_observer_at (s.now + d) cb s

/-- `BaseLoop.call_now`: append a normal handle at the current time to
`ready`. -/
def call_now (cb : Cb) (s : LoopState) : LoopState :=
  { s with ready := s.ready ++ [⟨s.now, .normal, cb, s.nextId⟩],
           nextId := s.nextId + 1 }

/-- `BaseLoop.call_observer_now`: append an `ObserverHandle` to `ready`. -/
def call_observer_now (cb : Cb) (s : LoopState) : LoopState :=
  { s with ready := s.ready ++ [⟨s.now, .observer, cb, s.nextId⟩],
           nextId := s.nextId + 1 }

/-- `Handle.cancel` on the handle with id `hid`. -/
def cancelHandle (hid : Nat) (s : LoopState) : LoopState :=
  { s with cancelledIds := hid :: s.cancelledIds }

/-- Execute a callback program: perform the loop calls it makes, in order.
The `oro` actions only run task-layer Python code, which interacts with
the loop exclusively through the `call_*` methods, so at the loop layer
they schedule nothing by themselves. -/
def runCb : Cb → LoopState → LoopState
  | .nil, s => s
  | .callAt t body rest, s => runCb rest (call_at t body s)
  | .callLater d body rest, s => runCb rest (call_later d body s)
  | .callObserverAt t body rest, s => runCb rest (call_observer_at t body s)
  | .callObserverLater d body rest, s =>
      runCb rest (call_observer_later d body s)
  | .callNow body rest, s => runCb rest (call_now body s)
  | .callObserverNow body rest, s => runCb rest (call_observer_now body s)
  | .cancelH hid rest, s => runCb rest (cancelHandle hid s)
  | .oro _ rest, s => runCb rest s

/-- The record of one `Handle._run()` execution. -/
structure RunEv where
  hid : Nat
  kind : HKind
  when : Time
deriving DecidableEq, Repr

/-- The drain loop at the top of `BaseLoop.run_once`: while the heap root is
`≤ endtime`, set `now` to its `when`, pop it and append it to `ready`.
Returns the new state and the popped handles in order. -/
def drain (endtime : Time) (s : LoopState) : LoopState × List Handle :=
  match hp : heappop s.scheduled with
  | none => (s, [])
  | some (h, rest) =>
    if h.when > endtime then (s, [])
    else
      let r := drain endtime
        { s with now := h.when, scheduled := rest, ready := s.ready ++ [h] }
      (r.1, h :: r.2)
termination_by s.scheduled.length
decreasing_by
  have := heappop_length hp
  show rest.length < s.scheduled.length
  omega

theorem drain_eq (endtime : Time) (s : LoopState) :
    drain endtime s = match heappop s.scheduled with
      | none => (s, [])
      | some p =>
        if p.1.when > endtime then (s, [])
        else
          let r := drain endtime
            { s with now := p.1.when, scheduled := p.2,
                     ready := s.ready ++ [p.1] }
          (r.1, p.1 :: r.2) := by
  rw [drain]
  split
  · next heq => rw [heq]
  · next h rest heq => rw [heq]

/-- One wave: `for h in wave: ...` inside the ready-processing loop of
`run_once`.  Cancelled handles are skipped, observer handles are deferred
onto `self.observers`, normal handles run. -/
def runWave (wave : List Handle) (s : LoopState) : LoopState × List RunEv :=
  match wave with
  | [] => (s, [])
  | h :: ws =>
    if h.id ∈ s.cancelledIds then runWave ws s
    else
      match h.kind with
      | .observer => runWave ws { s with observers := s.observers ++ [h] }
      | .normal =>
        let r := runWave ws (runCb h.cb s)
        (r.1, ⟨h.id, .normal, h.when⟩ :: r.2)

/-- The `while self.ready` loop of `run_once`: move `ready` into a wave and
execute it; repeat.  `fuel` bounds the number of waves — the Python loop
runs until `ready` stays empty, which need not terminate, and `none` marks
a run that would still be looping. -/
def wavesLoop (fuel : Nat) (s : LoopState) : Option (LoopState × List RunEv) :=
  match fuel with
  | 0 => if s.ready.isEmpty then some (s, []) else none
  | fuel + 1 =>
    if s.ready.isEmpty then some (s, [])
    else
      let r := runWave s.ready { s with ready := [] }
      match wavesLoop fuel r.1 with
      | none => none
      | some (s2, tr2) => some (s2, r.2 ++ tr2)

/-- The deferred-observer pass: `for h in owave: if not h._cancelled:
h._run()`. -/
def runOWave (owave : List Handle) (s : LoopState) : LoopState × List RunEv :=
  match owave with
  | [] => (s, [])
  | h :: ws =>
    if h.id ∈ s.cancelledIds then runOWave ws s
    else
      let r := runOWave ws (runCb h.cb s)
      (r.1, ⟨h.id, h.kind, h.when⟩ :: r.2)

/-- End of `run_once`: move `self.observers` into `owave` and run it. -/
def runObservers (s : LoopState) : LoopState × List RunEv :=
  runOWave s.observers { s with observers := [] }

/-- `BaseLoop.run_once(endtime)`: drain the heap up to `endtime`, run the
ready waves, run the deferred observers, then set `now = endtime`.
Returns the final state, the drained handles, and the execution trace. -/
def run_once (fuel : Nat) (endtime : Time) (s : LoopState) :
    Option (LoopState × List Handle × List RunEv) :=
  let d := drain endtime s
  match wavesLoop fuel d.1 with
  | none => none
  | some (s2, tr) =>
    let o := runObservers s2
    some ({ o.1 with now := endtime }, d.2, tr ++ o.2)

/-- `BaseLoop.next_when`. -/
def next_when (s : LoopState) : Option Time :=
  if s.ready.isEmpty = false then some s.now
  else
    match s.scheduled with
    | [] => none
    | h :: _ => some h.when

/-- `BaseLoop.run_until(endtime)`: run `run_once(next_when())` while there
is a next event not beyond `endtime`.  `fuel` bounds the iterations. -/
def run_until (fuel wfuel : Nat) (endtime : Time) (s : LoopState) :
    Option LoopState :=
  match fuel with
  | 0 => none
  | fuel + 1 =>
    match next_when s with
    | none => some s
    | some t =>
      if t > endtime then some s
      else
        match run_once wfuel t s with
        | none => none
        | some r => run_until fuel wfuel endtime r.1

/-- `BaseLoop.run_forever`: run `run_once(next_when())` until the queues are
empty.  `fuel` bounds the iterations. -/
def run_forever (fuel wfuel : Nat) (s : LoopState) : Option LoopState :=
  match fuel with
  | 0 => none
  | fuel + 1 =>
    match next_when s with
    | none => some s
    | some t =>
      match run_once wfuel t s with
      | none => none
      | some r => run_forever fuel wfuel r.1

/-! ### Invariants of the loop

`tame` callbacks only schedule at the current time or later (they never use
`call_at` with an absolute time, and only non-negative delays).  They
suffice for all the scheduling the task layer performs when timeouts are
non-negative. -/

/-- A callback program that never schedules into the past. -/
def tame : Cb → Bool
  | .nil => true
  | .callAt _ _ _ => false
  | .callObserverAt _ _ _ => false
  | .callLater d body rest => decide (0 ≤ d) && tame body && tame rest
  | .callObserverLater d body rest => decide (0 ≤ d) && tame body && tame rest
  | .callNow body rest => tame body && tame rest
  | .callObserverNow body rest => tame body && tame rest
  | .cancelH _ rest => tame rest
  | .oro _ rest => tame rest

/-- The state invariant under which `now` is monotone: the scheduled queue
is a heap of future, tame handles; ready and deferred-observer handles are
tame; the deferred-observer list holds only observer handles. -/
structure GoodState (s : LoopState) : Prop where
  heap : IsHeap s.scheduled
  sfuture : ∀ h ∈ s.scheduled, s.now ≤ h.when
  stame : ∀ h ∈ s.scheduled, tame h.cb = true
  rtame : ∀ h ∈ s.ready, tame h.cb = true
  otame : ∀ h ∈ s.observers, tame h.cb = true
  okind : ∀ h ∈ s.observers, h.kind = HKind.observer

theorem mem_heappush {l : List Handle} {x y : Handle} :
    y ∈ heappush l x ↔ y = x ∨ y ∈ l := by
  rw [(heappush_perm l x).mem_iff, List.mem_cons]

theorem runCb_now (cb : Cb) (s : LoopState) : (runCb cb s).now = s.now := by
  induction cb generalizing s with
  | nil => rfl
  | callAt t body rest ihb ihr => exact (ihr _).trans rfl
  | callLater d body rest ihb ihr => exact (ihr _).trans rfl
  | callObserverAt t body rest ihb ihr => exact (ihr _).trans rfl
  | callObserverLater d body rest ihb ihr => exact (ihr _).trans rfl
  | callNow body rest ihb ihr => exact (ihr _).trans rfl
  | callObserverNow body rest ihb ihr => exact (ihr _).trans rfl
  | cancelH hid rest ihr => exact (ihr _).trans rfl
  | oro tag rest ihr => exact (ihr _).trans rfl

theorem runCb_observers (cb : Cb) (s : LoopState) :
    (runCb cb s).observers = s.observers := by
  induction cb generalizing s with
  | nil => rfl
  | callAt t body rest ihb ihr => exact (ihr _).trans rfl
  | callLater d body rest ihb ihr => exact (ihr _).trans rfl
  | callObserverAt t body rest ihb ihr => exact (ihr _).trans rfl
  | callObserverLater d body rest ihb ihr => exact (ihr _).trans rfl
  | callNow body rest ihb ihr => exact (ihr _).trans rfl
  | callObserverNow body rest ihb ihr => exact (ihr _).trans rfl
  | cancelH hid rest ihr => exact (ihr _).trans rfl
  | oro tag rest ihr => exact (ihr _).trans rfl

theorem good_call_later {s : LoopState} (hg : GoodState s) {d : Time}
    {body : Cb} (hd : 0 ≤ d) (hb : tame body = true) :
    GoodState (call_later d body s) := by
  constructor
  · exact heappush_isHeap hg.heap _
  · intro h hm
    rcases mem_heappush.mp hm with rfl | hm2
    · show s.now ≤ s.now + d
      exact le_add_of_nonneg_right hd
    · exact hg.sfuture h hm2
  · intro h hm
    rcases mem_heappush.mp hm with rfl | hm2
    · exact hb
    · exact hg.stame h hm2
  · exact hg.rtame
  · exact hg.otame
  · exact hg.okind

theorem good_call_observer_later {s : LoopState} (hg : GoodState s)
    {d : Time} {body : Cb} (hd : 0 ≤ d) (hb : tame body = true) :
    GoodState (call_observer_later d body s) := by
  constructor
  · exact heappush_isHeap hg.heap _
  · intro h hm
    rcases mem_heappush.mp hm with rfl | hm2
    · show s.now ≤ s.now + d
      exact le_add_of_nonneg_right hd
    · exact hg.sfuture h hm2
  · intro h hm
    rcases mem_heappush.mp hm with rfl | hm2
    · exact hb
    · exact hg.stame h hm2
  · exact hg.rtame
  · exact hg.otame
  · exact hg.okind

theorem good_call_now {s : LoopState} (hg : GoodState s) {body : Cb}
    (hb : tame body = true) : GoodState (call_now body s) := by
  constructor
  · exact hg.heap
  · exact hg.sfuture
  · exact hg.stame
  · intro h hm
    rcases List.mem_append.mp hm with hm2 | hm2
    · exact hg.rtame h hm2
    · rw [List.mem_singleton.mp hm2]
      exact hb
  · exact hg.otame
  · exact hg.okind

theorem good_call_observer_now {s : LoopState} (hg : GoodState s) {body : Cb}
    (hb : tame body = true) : GoodState (call_observer_now body s) := by
  constructor
  · exact hg.heap
  · exact hg.sfuture
  · exact hg.stame
  · intro h hm
    rcases List.mem_append.mp hm with hm2 | hm2
    · exact hg.rtame h hm2
    · rw [List.mem_singleton.mp hm2]
      exact hb
  · exact hg.otame
  · exact hg.okind

theorem good_cancelHandle {s : LoopState} (hg : GoodState s) (hid : Nat) :
    GoodState (cancelHandle hid s) := by
  constructor
  · exact hg.heap
  · exact hg.sfuture
  · exact hg.stame
  · exact hg.rtame
  · exact hg.otame
  · exact hg.okind

/-- Running a tame callback preserves the loop invariant. -/
theorem runCb_good {cb : Cb} (ht : tame cb = true) :
    ∀ {s : LoopState}, GoodState s → GoodState (runCb cb s) := by
  induction cb with
  | nil => intro s hg; exact hg
  | callAt t body rest ihb ihr => exact absurd ht (by simp [tame])
  | callLater d body rest ihb ihr =>
    intro s hg
    simp only [tame, Bool.and_eq_true, decide_eq_true_eq] at ht
    exact ihr ht.2 (good_call_later hg ht.1.1 ht.1.2)
  | callObserverAt t body rest ihb ihr => exact absurd ht (by simp [tame])
  | callObserverLater d body rest ihb ihr =>
    intro s hg
    simp only [tame, Bool.and_eq_true, decide_eq_true_eq] at ht
    exact ihr ht.2 (good_call_observer_later hg ht.1.1 ht.1.2)
  | callNow body rest ihb ihr =>
    intro s hg
    simp only [tame, Bool.and_eq_true] at ht
    exact ihr ht.2 (good_call_now hg ht.1)
  | callObserverNow body rest ihb ihr =>
    intro s hg
    simp only [tame, Bool.and_eq_true] at ht
    exact ihr ht.2 (good_call_observer_now hg ht.1)
  | cancelH hid rest ihr =>
    intro s hg
    simp only [tame] at ht
    exact ihr ht (good_cancelHandle hg hid)
  | oro tag rest ihr =>
    intro s hg
    simp only [tame] at ht
    exact ihr ht hg


theorem heappop_none {l : List Handle} (h : heappop l = none) : l = [] := by
  unfold heappop at h
  cases hgl : l.getLast? with
  | none => exact List.getLast?_eq_none_iff.mp hgl
  | some x =>
    rw [hgl] at h
    cases hdd : l.dropLast with
    | nil => rw [hdd] at h; exact absurd h (by simp)
    | cons r rs => rw [hdd] at h; exact absurd h (by simp)

/-- The drain loop: starting from a good state with `now ≤ endtime`, it
yields a good state, assigns `now` a non-decreasing chain of values that
stay `≤ endtime`, and leaves only strictly-future handles on the heap. -/
theorem drain_spec (n : Nat) :
    ∀ (e : Time) (s s' : LoopState) (popped : List Handle),
      s.scheduled.length ≤ n → GoodState s → s.now ≤ e →
      drain e s = (s', popped) →
      GoodState s' ∧ s'.now ≤ e ∧ s.now ≤ s'.now ∧
      List.Chain' (· ≤ ·) (s.now :: popped.map Handle.when) ∧
      (∀ h ∈ popped, h.when ≤ e) ∧
      (∀ h ∈ s'.scheduled, e < h.when) ∧
      s'.observers = s.observers ∧
      s'.now = (popped.getLast?.map Handle.when).getD s.now ∧
      (popped = [] → s' = s) ∧
      (∀ h ∈ popped, h ∈ s.scheduled) := by
  induction n with
  | zero =>
    intro e s s' popped hn hg he hd
    have h0 : s.scheduled = [] := List.length_eq_zero.mp (by omega)
    rw [drain_eq] at hd
    rw [show heappop s.scheduled = none by rw [h0]; rfl] at hd
    have hd' : (s, ([] : List Handle)) = (s', popped) := hd
    simp only [Prod.mk.injEq] at hd'
    obtain ⟨rfl, rfl⟩ := hd'
    refine ⟨hg, he, le_refl _, List.chain'_singleton _, by simp, ?_, rfl,
      by simp, fun _ => rfl, by simp⟩
    intro h hm
    rw [h0] at hm
    simp at hm
  | succ n ih =>
    intro e s s' popped hn hg he hd
    rw [drain_eq] at hd
    cases hp : heappop s.scheduled with
    | none =>
      rw [hp] at hd
      have hd' : (s, ([] : List Handle)) = (s', popped) := hd
      simp only [Prod.mk.injEq] at hd'
      obtain ⟨rfl, rfl⟩ := hd'
      refine ⟨hg, he, le_refl _, List.chain'_singleton _, by simp, ?_, rfl,
        by simp, fun _ => rfl, by simp⟩
      intro h hm
      rw [heappop_none hp] at hm
      simp at hm
    | some p =>
      obtain ⟨h, rest⟩ := p
      rw [hp] at hd
      obtain ⟨hheap, hperm, hmin⟩ := heappop_spec hg.heap hp
      have hmem : h ∈ s.scheduled := hperm.subset (List.mem_cons_self h rest)
      replace hd : (if h.when > e then (s, ([] : List Handle)) else ((drain e { s with now := h.when, scheduled := rest, ready := s.ready ++ [h] }).1, h :: (drain e { s with now := h.when, scheduled := rest, ready := s.ready ++ [h] }).2)) = (s', popped) := hd
      split at hd
      · next hwe =>
        simp only [Prod.mk.injEq] at hd
        obtain ⟨rfl, rfl⟩ := hd
        refine ⟨hg, he, le_refl _, List.chain'_singleton _, by simp, ?_, rfl,
          by simp, fun _ => rfl, by simp⟩
        intro y hy
        exact lt_of_lt_of_le hwe (hmin y hy)
      · next hwe =>
        have hwe2 : h.when ≤ e := not_lt.mp hwe
        cases hdd : drain e { s with now := h.when, scheduled := rest, ready := s.ready ++ [h] } with
        | mk rs rp =>
        rw [hdd] at hd
        simp only [Prod.mk.injEq] at hd
        obtain ⟨hd1, hd2⟩ := hd
        subst hd1
        subst hd2
        have hg2 : GoodState { s with now := h.when, scheduled := rest, ready := s.ready ++ [h] } := by
          constructor
          · exact hheap
          · intro y hy
            exact hmin y (hperm.subset (List.mem_cons_of_mem h hy))
          · intro y hy
            exact hg.stame y (hperm.subset (List.mem_cons_of_mem h hy))
          · intro y hy
            rcases List.mem_append.mp hy with hy2 | hy2
            · exact hg.rtame y hy2
            · rw [List.mem_singleton.mp hy2]
              exact hg.stame h hmem
          · exact hg.otame
          · exact hg.okind
        have hlen2 : rest.length ≤ n := by
          have := heappop_length hp
          omega
        obtain ⟨ihg, ihe, ihmono, ihchain, ihle, ihsched, ihobs, ihnow,
          ihnil, ihmem⟩ := ih e _ _ _ hlen2 hg2 hwe2 hdd
        refine ⟨ihg, ihe, ?_, ?_, ?_, ihsched, ihobs, ?_, ?_, ?_⟩
        · exact le_trans (hg.sfuture h hmem) ihmono
        · rw [List.map_cons, List.chain'_cons]
          exact ⟨hg.sfuture h hmem, ihchain⟩
        · intro y hy
          rcases List.mem_cons.mp hy with rfl | hy2
          · exact hwe2
          · exact ihle y hy2
        · rw [List.getLast?_cons]
          cases hrp : rp.getLast? with
          | none => simpa [hrp] using ihnow
          | some z => simpa [hrp] using ihnow
        · intro habs
          exact absurd habs (List.cons_ne_nil h rp)
        · intro y hy
          rcases List.mem_cons.mp hy with rfl | hy2
          · exact hmem
          · exact hperm.subset (List.mem_cons_of_mem h (ihmem y hy2))

theorem runWave_trace_normal (wave : List Handle) :
    ∀ (s : LoopState), ∀ ev ∈ (runWave wave s).2, ev.kind = HKind.normal := by
  induction wave with
  | nil => intro s ev hev; simp [runWave] at hev
  | cons h ws ih =>
    intro s ev hev
    rw [runWave] at hev
    split at hev
    · exact ih s ev hev
    · split at hev
      · exact ih _ ev hev
      · rcases List.mem_cons.mp hev with rfl | hev2
        · rfl
        · exact ih _ ev hev2

theorem runWave_now (wave : List Handle) :
    ∀ (s : LoopState), (runWave wave s).1.now = s.now := by
  induction wave with
  | nil => intro s; rfl
  | cons h ws ih =>
    intro s
    rw [runWave]
    split
    · exact ih s
    · split
      · exact ih _
      · exact (ih _).trans (runCb_now _ _)

theorem runWave_okind (wave : List Handle) :
    ∀ (s : LoopState), (∀ h ∈ s.observers, h.kind = HKind.observer) →
      ∀ h ∈ (runWave wave s).1.observers, h.kind = HKind.observer := by
  induction wave with
  | nil => intro s hs; exact hs
  | cons h ws ih =>
    intro s hs y hy
    rw [runWave] at hy
    split at hy
    · exact ih s hs y hy
    · split at hy
      · next hk =>
        refine ih _ ?_ y hy
        intro z hz
        rcases List.mem_append.mp hz with hz2 | hz2
        · exact hs z hz2
        · rw [List.mem_singleton.mp hz2, hk]
      · refine ih _ ?_ y hy
        rw [runCb_observers]
        exact hs

theorem runWave_good (wave : List Handle) :
    ∀ (s : LoopState), (∀ h ∈ wave, tame h.cb = true) → GoodState s →
      GoodState (runWave wave s).1 := by
  induction wave with
  | nil => intro s _ hg; exact hg
  | cons h ws ih =>
    intro s hw hg
    rw [runWave]
    split
    · exact ih s (fun y hy => hw y (List.mem_cons_of_mem h hy)) hg
    · split
      · next hk =>
        refine ih _ (fun y hy => hw y (List.mem_cons_of_mem h hy)) ?_
        constructor
        · exact hg.heap
        · exact hg.sfuture
        · exact hg.stame
        · exact hg.rtame
        · intro z hz
          rcases List.mem_append.mp hz with hz2 | hz2
          · exact hg.otame z hz2
          · rw [List.mem_singleton.mp hz2]
            exact hw h (List.mem_cons_self h ws)
        · intro z hz
          rcases List.mem_append.mp hz with hz2 | hz2
          · exact hg.okind z hz2
          · rw [List.mem_singleton.mp hz2, hk]
      · exact ih _ (fun y hy => hw y (List.mem_cons_of_mem h hy))
          (runCb_good (hw h (List.mem_cons_self h ws)) hg)

theorem wavesLoop_ready_empty {fuel : Nat} {s : LoopState}
    (h : s.ready = []) : wavesLoop fuel s = some (s, []) := by
  cases fuel with
  | zero => simp [wavesLoop, h]
  | succ fuel => simp [wavesLoop, h]

theorem wavesLoop_spec (fuel : Nat) :
    ∀ (s s2 : LoopState) (tr : List RunEv),
      wavesLoop fuel s = some (s2, tr) →
      (∀ ev ∈ tr, ev.kind = HKind.normal) ∧
      s2.now = s.now ∧
      ((∀ h ∈ s.observers, h.kind = HKind.observer) →
        ∀ h ∈ s2.observers, h.kind = HKind.observer) ∧
      (GoodState s → GoodState s2) := by
  induction fuel with
  | zero =>
    intro s s2 tr hw
    rw [wavesLoop] at hw
    split at hw
    · simp only [Option.some.injEq, Prod.mk.injEq] at hw
      obtain ⟨rfl, rfl⟩ := hw
      exact ⟨by simp, rfl, fun h => h, fun h => h⟩
    · exact absurd hw (by simp)
  | succ fuel ih =>
    intro s s2 tr hw
    rw [wavesLoop] at hw
    split at hw
    · simp only [Option.some.injEq, Prod.mk.injEq] at hw
      obtain ⟨rfl, rfl⟩ := hw
      exact ⟨by simp, rfl, fun h => h, fun h => h⟩
    · next hne =>
      have hready : s.ready ≠ [] := by
        intro hh
        rw [hh] at hne
        simp at hne
      replace hw : (match wavesLoop fuel (runWave s.ready { s with ready := [] }).1 with | none => none | some (s4, tr4) => some (s4, (runWave s.ready { s with ready := [] }).2 ++ tr4)) = some (s2, tr) := hw
      cases hw2 : wavesLoop fuel (runWave s.ready { s with ready := [] }).1 with
      | none => rw [hw2] at hw; exact absurd hw (by simp)
      | some p =>
        obtain ⟨s3, tr3⟩ := p
        rw [hw2] at hw
        simp only [Option.some.injEq, Prod.mk.injEq] at hw
        obtain ⟨rfl, rfl⟩ := hw
        obtain ⟨ihn, ihnow, ihok, ihgood⟩ := ih _ _ _ hw2
        refine ⟨?_, ?_, ?_, ?_⟩
        · intro ev hev
          rcases List.mem_append.mp hev with hev2 | hev2
          · exact runWave_trace_normal s.ready _ ev hev2
          · exact ihn ev hev2
        · rw [ihnow, runWave_now]
        · intro hobs
          exact ihok (runWave_okind s.ready _ hobs)
        · intro hg
          refine ihgood (runWave_good s.ready _ ?_ ?_)
          · exact fun y hy => hg.rtame y hy
          · constructor
            · exact hg.heap
            · exact hg.sfuture
            · exact hg.stame
            · intro y hy
              simp at hy
            · exact hg.otame
            · exact hg.okind

theorem runOWave_now (owave : List Handle) :
    ∀ (s : LoopState), (runOWave owave s).1.now = s.now := by
  induction owave with
  | nil => intro s; rfl
  | cons h ws ih =>
    intro s
    rw [runOWave]
    split
    · exact ih s
    · exact (ih _).trans (runCb_now _ _)

theorem runOWave_observers (owave : List Handle) :
    ∀ (s : LoopState), (runOWave owave s).1.observers = s.observers := by
  induction owave with
  | nil => intro s; rfl
  | cons h ws ih =>
    intro s
    rw [runOWave]
    split
    · exact ih s
    · exact (ih _).trans (runCb_observers _ _)

theorem runOWave_trace_kind (owave : List Handle) :
    ∀ (s : LoopState), (∀ h ∈ owave, h.kind = HKind.observer) →
      ∀ ev ∈ (runOWave owave s).2, ev.kind = HKind.observer := by
  induction owave with
  | nil => intro s _ ev hev; simp [runOWave] at hev
  | cons h ws ih =>
    intro s hk ev hev
    rw [runOWave] at hev
    split at hev
    · exact ih s (fun y hy => hk y (List.mem_cons_of_mem h hy)) ev hev
    · rcases List.mem_cons.mp hev with rfl | hev2
      · exact hk h (List.mem_cons_self h ws)
      · exact ih _ (fun y hy => hk y (List.mem_cons_of_mem h hy)) ev hev2

theorem runOWave_good (owave : List Handle) :
    ∀ (s : LoopState), (∀ h ∈ owave, tame h.cb = true) → GoodState s →
      GoodState (runOWave owave s).1 := by
  induction owave with
  | nil => intro s _ hg; exact hg
  | cons h ws ih =>
    intro s hw hg
    rw [runOWave]
    split
    · exact ih s (fun y hy => hw y (List.mem_cons_of_mem h hy)) hg
    · exact ih _ (fun y hy => hw y (List.mem_cons_of_mem h hy))
        (runCb_good (hw h (List.mem_cons_self h ws)) hg)


theorem good_clear_observers {s : LoopState} (hg : GoodState s) :
    GoodState { s with observers := [] } := by
  constructor
  · exact hg.heap
  · exact hg.sfuture
  · exact hg.stame
  · exact hg.rtame
  · intro y hy; simp at hy
  · intro y hy; simp at hy

/-- `run_once(endtime)` from a good inter-step state (empty deferred
observers, all pending events at or after `endtime`, and `endtime = now`
whenever `ready` is non-empty, as `run_until`/`run_forever` arrange via
`next_when`): the final `now` is `endtime`, every intermediate assignment
to `now` is non-decreasing, and the invariant is re-established. -/
theorem run_once_spec {fuel : Nat} {e : Time} {s s' : LoopState}
    {popped : List Handle} {tr : List RunEv}
    (hg : GoodState s) (hobs0 : s.observers = [])
    (he : s.now ≤ e)
    (hsched : ∀ h ∈ s.scheduled, e ≤ h.when)
    (hready : s.ready ≠ [] → e = s.now)
    (hrun : run_once fuel e s = some (s', popped, tr)) :
    GoodState s' ∧ s'.observers = [] ∧ s'.now = e ∧
    List.Chain' (· ≤ ·) ((s.now :: popped.map Handle.when) ++ [e]) := by
  obtain ⟨g1, g2, g3, g4, g5, g6, g7, g8, g9, g10⟩ :=
    drain_spec s.scheduled.length e s (drain e s).1 (drain e s).2
      (le_refl _) hg he rfl
  replace hrun : (match wavesLoop fuel (drain e s).1 with
      | none => none
      | some (s2, tr2) => some ({ (runObservers s2).1 with now := e },
          (drain e s).2, tr2 ++ (runObservers s2).2)) =
      some (s', popped, tr) := hrun
  cases hw : wavesLoop fuel (drain e s).1 with
  | none => rw [hw] at hrun; exact absurd hrun (by simp)
  | some p =>
    obtain ⟨s2, tr2⟩ := p
    rw [hw] at hrun
    simp only [Option.some.injEq, Prod.mk.injEq] at hrun
    obtain ⟨hrun1, hrun2, hrun3⟩ := hrun
    subst hrun1
    subst hrun2
    subst hrun3
    obtain ⟨w1, w2, w3, w4⟩ := wavesLoop_spec fuel (drain e s).1 s2 tr2 hw
    have hg2 : GoodState s2 := w4 g1
    have hg3 : GoodState (runObservers s2).1 := by
      unfold runObservers
      exact runOWave_good _ _ hg2.otame (good_clear_observers hg2)
    have hobs3 : (runObservers s2).1.observers = [] := by
      unfold runObservers
      rw [runOWave_observers]
    have hnow3 : (runObservers s2).1.now = s2.now := by
      unfold runObservers
      rw [runOWave_now]
    have hkey : ∀ h ∈ (runObservers s2).1.scheduled, e ≤ h.when := by
      by_cases hid : (drain e s).2 = [] ∧ s.ready = []
      · obtain ⟨hpn, hrn⟩ := hid
        have hs1 : (drain e s).1 = s := g9 hpn
        rw [hs1, wavesLoop_ready_empty hrn] at hw
        simp only [Option.some.injEq, Prod.mk.injEq] at hw
        obtain ⟨rfl, rfl⟩ := hw
        have hro : runObservers s = ({ s with observers := [] }, []) := by
          unfold runObservers
          rw [hobs0]
          rfl
        rw [hro]
        exact hsched
      · have hnow1 : (drain e s).1.now = e := by
          rcases not_and_or.mp hid with hpn | hrn
          · cases hgl : (drain e s).2.getLast? with
            | none => exact absurd (List.getLast?_eq_none_iff.mp hgl) hpn
            | some z =>
              have hzmem : z ∈ (drain e s).2 := List.mem_of_mem_getLast? hgl
              have hz1 : z.when ≤ e := g5 z hzmem
              have hz2 : e ≤ z.when := hsched z (g10 z hzmem)
              rw [g8, hgl]
              show z.when = e
              exact le_antisymm hz1 hz2
          · have he2 := hready hrn
            exact le_antisymm g2 (he2 ▸ g3)
        intro h hm
        have := hg3.sfuture h hm
        rw [hnow3, w2, hnow1] at this
        exact this
    refine ⟨?_, hobs3, rfl, ?_⟩
    · constructor
      · exact hg3.heap
      · exact hkey
      · exact hg3.stame
      · exact hg3.rtame
      · intro y hy
        rw [hobs3] at hy
        simp at hy
      · intro y hy
        rw [hobs3] at hy
        simp at hy
    · rw [List.chain'_append]
      refine ⟨g4, List.chain'_singleton e, ?_⟩
      intro x hx y hy
      simp only [List.head?_cons, Option.mem_def, Option.some.injEq] at hy
      subst hy
      rw [List.getLast?_cons] at hx
      simp only [Option.mem_def, Option.some.injEq] at hx
      subst hx
      cases hm : ((drain e s).2.map Handle.when).getLast? with
      | none => exact he
      | some z =>
        have hzm : z ∈ (drain e s).2.map Handle.when :=
          List.mem_of_mem_getLast? hm
        obtain ⟨hh, hhm, rfl⟩ := List.mem_map.mp hzm
        exact g5 hh hhm


theorem drain_observers (n : Nat) :
    ∀ (e : Time) (s : LoopState), s.scheduled.length ≤ n →
      (drain e s).1.observers = s.observers := by
  induction n with
  | zero =>
    intro e s hn
    have h0 : s.scheduled = [] := List.length_eq_zero.mp (by omega)
    rw [drain_eq, show heappop s.scheduled = none by rw [h0]; rfl]
  | succ n ih =>
    intro e s hn
    rw [drain_eq]
    cases hp : heappop s.scheduled with
    | none => rfl
    | some p =>
      obtain ⟨h, rest⟩ := p
      show (if h.when > e then (s, ([] : List Handle)) else ((drain e { s with now := h.when, scheduled := rest, ready := s.ready ++ [h] }).1, h :: (drain e { s with now := h.when, scheduled := rest, ready := s.ready ++ [h] }).2)).1.observers = s.observers
      split
      · rfl
      · have hlen : rest.length ≤ n := by
          have := heappop_length hp
          omega
        exact ih e _ hlen

/-- Within one `run_once`, the execution trace is all the normal handles
followed by all the deferred observer handles. -/
theorem run_once_phase_split {fuel : Nat} {e : Time} {s s' : LoopState}
    {popped : List Handle} {tr : List RunEv}
    (hobs : ∀ h ∈ s.observers, h.kind = HKind.observer)
    (hrun : run_once fuel e s = some (s', popped, tr)) :
    ∃ a b, tr = a ++ b ∧ (∀ ev ∈ a, ev.kind = HKind.normal) ∧
      (∀ ev ∈ b, ev.kind = HKind.observer) := by
  replace hrun : (match wavesLoop fuel (drain e s).1 with
      | none => none
      | some (s2, tr2) => some ({ (runObservers s2).1 with now := e },
          (drain e s).2, tr2 ++ (runObservers s2).2)) =
      some (s', popped, tr) := hrun
  cases hw : wavesLoop fuel (drain e s).1 with
  | none => rw [hw] at hrun; exact absurd hrun (by simp)
  | some p =>
    obtain ⟨s2, tr2⟩ := p
    rw [hw] at hrun
    simp only [Option.some.injEq, Prod.mk.injEq] at hrun
    obtain ⟨hrun1, hrun2, hrun3⟩ := hrun
    subst hrun3
    obtain ⟨w1, w2, w3, w4⟩ := wavesLoop_spec fuel (drain e s).1 s2 tr2 hw
    refine ⟨tr2, (runObservers s2).2, rfl, w1, ?_⟩
    have hobs1 : ∀ h ∈ (drain e s).1.observers, h.kind = HKind.observer := by
      rw [drain_observers s.scheduled.length e s (le_refl _)]
      exact hobs
    exact runOWave_trace_kind s2.observers _ (w3 hobs1)

/-! ### Public loop operations and monotonicity of `now` -/

/-- The inter-step invariant: a good state with no pending deferred
observers (`run_once` always leaves `self.observers` empty). -/
def ExtGood (s : LoopState) : Prop := GoodState s ∧ s.observers = []

theorem next_when_good {s : LoopState} (hg : GoodState s) {t : Time}
    (h : next_when s = some t) :
    s.now ≤ t ∧ (∀ y ∈ s.scheduled, t ≤ y.when) ∧ (s.ready ≠ [] → t = s.now) := by
  unfold next_when at h
  split at h
  · next hr =>
    simp only [Option.some.injEq] at h
    subst h
    exact ⟨le_refl _, fun y hy => hg.sfuture y hy, fun _ => rfl⟩
  · next hr =>
    have hre : s.ready = [] := by
      rcases hp : s.ready with _ | ⟨a, l⟩
      · rfl
      · rw [hp] at hr; simp at hr
    cases hs : s.scheduled with
    | nil => rw [hs] at h; exact absurd h (by simp)
    | cons root rest =>
      rw [hs] at h
      simp only [Option.some.injEq] at h
      subst h
      refine ⟨hg.sfuture root (by rw [hs]; exact List.mem_cons_self root rest), ?_, ?_⟩
      · intro y hy
        have hy2 : y ∈ s.scheduled := by rw [hs]; exact hy
        have := isHeap_root_le_mem hg.heap hy2
        rw [hs] at this
        simpa [wkey, List.getD_cons_zero] using this
      · intro hcon
        exact absurd hre hcon

/-- The public operations of the loop, as invoked by user code between (or
inside) runs. -/
inductive LoopOp where
  | opCallAt (t : Time) (cb : Cb)
  | opCallLater (d : Time) (cb : Cb)
  | opCallObserverAt (t : Time) (cb : Cb)
  | opCallObserverLater (d : Time) (cb : Cb)
  | opCallNow (cb : Cb)
  | opCallObserverNow (cb : Cb)
  | opRunOnce (fuel : Nat) (e : Time)
  | opRunUntil (fuel wfuel : Nat) (e : Time)
  | opRunForever (fuel wfuel : Nat)

def applyOp : LoopOp → LoopState → Option LoopState
  | .opCallAt t cb, s => some (call_at t cb s)
  | .opCallLater d cb, s => some (call_later d cb s)
  | .opCallObserverAt t cb, s => some (call_observer_at t cb s)
  | .opCallObserverLater d cb, s => some (call_observer_later d cb s)
  | .opCallNow cb, s => some (call_now cb s)
  | .opCallObserverNow cb, s => some (call_observer_now cb s)
  | .opRunOnce fuel e, s => (run_once fuel e s).map (·.1)
  | .opRunUntil fuel wfuel e, s => run_until fuel wfuel e s
  | .opRunForever fuel wfuel, s => run_forever fuel wfuel s

def applySeq : List LoopOp → LoopState → Option LoopState
  | [], s => some s
  | op :: ops, s =>
    match applyOp op s with
    | none => none
    | some s1 => applySeq ops s1

/-- Side conditions under which an operation does not schedule into the
past or run the loop backwards: absolute times are `≥ now`, delays are
non-negative, callbacks are tame, and a direct `run_once(endtime)` does not
jump over pending events (`run_until`/`run_forever` guarantee this
themselves by passing `next_when()`). -/
def GoodOp : LoopOp → LoopState → Prop
  | .opCallAt t cb, s => s.now ≤ t ∧ tame cb = true
  | .opCallLater d cb, _ => 0 ≤ d ∧ tame cb = true
  | .opCallObserverAt t cb, s => s.now ≤ t ∧ tame cb = true
  | .opCallObserverLater d cb, _ => 0 ≤ d ∧ tame cb = true
  | .opCallNow cb, _ => tame cb = true
  | .opCallObserverNow cb, _ => tame cb = true
  | .opRunOnce _ e, s => s.now ≤ e ∧ (∀ h ∈ s.scheduled, e ≤ h.when) ∧
      (s.ready ≠ [] → e = s.now)
  | .opRunUntil _ _ _, _ => True
  | .opRunForever _ _, _ => True

def GoodSeq : List LoopOp → LoopState → Prop
  | [], _ => True
  | op :: ops, s => GoodOp op s ∧ ∀ s1, applyOp op s = some s1 → GoodSeq ops s1

theorem good_call_at_op {s : LoopState} (hg : GoodState s) {t : Time}
    {cb : Cb} (ht : s.now ≤ t) (hc : tame cb = true) :
    GoodState (call_at t cb s) := by
  constructor
  · exact heappush_isHeap hg.heap _
  · intro h hm
    rcases mem_heappush.mp hm with rfl | hm2
    · exact ht
    · exact hg.sfuture h hm2
  · intro h hm
    rcases mem_heappush.mp hm with rfl | hm2
    · exact hc
    · exact hg.stame h hm2
  · exact hg.rtame
  · exact hg.otame
  · exact hg.okind

theorem good_call_observer_at_op {s : LoopState} (hg : GoodState s)
    {t : Time} {cb : Cb} (ht : s.now ≤ t) (hc : tame cb = true) :
    GoodState (call_observer_at t cb s) := by
  constructor
  · exact heappush_isHeap hg.heap _
  · intro h hm
    rcases mem_heappush.mp hm with rfl | hm2
    · exact ht
    · exact hg.sfuture h hm2
  · intro h hm
    rcases mem_heappush.mp hm with rfl | hm2
    · exact hc
    · exact hg.stame h hm2
  · exact hg.rtame
  · exact hg.otame
  · exact hg.okind

theorem run_until_good (fuel : Nat) :
    ∀ (wfuel : Nat) (e : Time) (s s' : LoopState), ExtGood s →
      run_until fuel wfuel e s = some s' →
      ExtGood s' ∧ s.now ≤ s'.now := by
  induction fuel with
  | zero => intro wfuel e s s' hg hr; exact absurd hr (by simp [run_until])
  | succ fuel ih =>
    intro wfuel e s s' hg hr
    rw [run_until] at hr
    cases hnw : next_when s with
    | none =>
      rw [hnw] at hr
      simp only [Option.some.injEq] at hr
      subst hr
      exact ⟨hg, le_refl _⟩
    | some t =>
      rw [hnw] at hr
      replace hr : (if t > e then some s else match run_once wfuel t s with | none => none | some r => run_until fuel wfuel e r.1) = some s' := hr
      obtain ⟨hn1, hn2, hn3⟩ := next_when_good hg.1 hnw
      split at hr
      · simp only [Option.some.injEq] at hr
        subst hr
        exact ⟨hg, le_refl _⟩
      · cases ho : run_once wfuel t s with
        | none => rw [ho] at hr; exact absurd hr (by simp)
        | some r =>
          rw [ho] at hr
          obtain ⟨rg, robs, rnow, _⟩ :=
            run_once_spec hg.1 hg.2 hn1 hn2 hn3 (by rw [ho])
          obtain ⟨ihg, ihmono⟩ := ih wfuel e r.1 s' ⟨rg, robs⟩ hr
          refine ⟨ihg, le_trans (le_trans hn1 ?_) ihmono⟩
          rw [rnow]

theorem run_forever_good (fuel : Nat) :
    ∀ (wfuel : Nat) (s s' : LoopState), ExtGood s →
      run_forever fuel wfuel s = some s' →
      ExtGood s' ∧ s.now ≤ s'.now := by
  induction fuel with
  | zero => intro wfuel s s' hg hr; exact absurd hr (by simp [run_forever])
  | succ fuel ih =>
    intro wfuel s s' hg hr
    rw [run_forever] at hr
    cases hnw : next_when s with
    | none =>
      rw [hnw] at hr
      simp only [Option.some.injEq] at hr
      subst hr
      exact ⟨hg, le_refl _⟩
    | some t =>
      rw [hnw] at hr
      replace hr : (match run_once wfuel t s with | none => none | some r => run_forever fuel wfuel r.1) = some s' := hr
      obtain ⟨hn1, hn2, hn3⟩ := next_when_good hg.1 hnw
      cases ho : run_once wfuel t s with
      | none => rw [ho] at hr; exact absurd hr (by simp)
      | some r =>
        rw [ho] at hr
        obtain ⟨rg, robs, rnow, _⟩ :=
          run_once_spec hg.1 hg.2 hn1 hn2 hn3 (by rw [ho])
        obtain ⟨ihg, ihmono⟩ := ih wfuel r.1 s' ⟨rg, robs⟩ hr
        refine ⟨ihg, le_trans (le_trans hn1 ?_) ihmono⟩
        rw [rnow]

/-- Any single well-behaved operation preserves the invariant and never
decreases `now`. -/
theorem applyOp_good {op : LoopOp} {s s1 : LoopState} (hg : ExtGood s)
    (hop : GoodOp op s) (ha : applyOp op s = some s1) :
    ExtGood s1 ∧ s.now ≤ s1.now := by
  cases op with
  | opCallAt t cb =>
    simp only [applyOp, Option.some.injEq] at ha
    subst ha
    exact ⟨⟨good_call_at_op hg.1 hop.1 hop.2, hg.2⟩, le_refl _⟩
  | opCallLater d cb =>
    simp only [applyOp, Option.some.injEq] at ha
    subst ha
    exact ⟨⟨good_call_later hg.1 hop.1 hop.2, hg.2⟩, le_refl _⟩
  | opCallObserverAt t cb =>
    simp only [applyOp, Option.some.injEq] at ha
    subst ha
    exact ⟨⟨good_call_observer_at_op hg.1 hop.1 hop.2, hg.2⟩, le_refl _⟩
  | opCallObserverLater d cb =>
    simp only [applyOp, Option.some.injEq] at ha
    subst ha
    exact ⟨⟨good_call_observer_later hg.1 hop.1 hop.2, hg.2⟩, le_refl _⟩
  | opCallNow cb =>
    simp only [applyOp, Option.some.injEq] at ha
    subst ha
    exact ⟨⟨good_call_now hg.1 hop, hg.2⟩, le_refl _⟩
  | opCallObserverNow cb =>
    simp only [applyOp, Option.some.injEq] at ha
    subst ha
    exact ⟨⟨good_call_observer_now hg.1 hop, hg.2⟩, le_refl _⟩
  | opRunOnce fuel e =>
    simp only [applyOp, Option.map_eq_some'] at ha
    obtain ⟨r, hr, rfl⟩ := ha
    obtain ⟨rg, robs, rnow, _⟩ :=
      run_once_spec hg.1 hg.2 hop.1 hop.2.1 hop.2.2 (by rw [hr])
    refine ⟨⟨rg, robs⟩, ?_⟩
    rw [rnow]
    exact hop.1
  | opRunUntil fuel wfuel e =>
    exact run_until_good fuel wfuel e s s1 hg ha
  | opRunForever fuel wfuel =>
    exact run_forever_good fuel wfuel s s1 hg ha

theorem applySeq_good (ops : List LoopOp) :
    ∀ (s s' : LoopState), ExtGood s → GoodSeq ops s →
      applySeq ops s = some s' → ExtGood s' ∧ s.now ≤ s'.now := by
  induction ops with
  | nil =>
    intro s s' hg _ ha
    simp only [applySeq, Option.some.injEq] at ha
    subst ha
    exact ⟨hg, le_refl _⟩
  | cons op ops ih =>
    intro s s' hg hseq ha
    rw [applySeq] at ha
    cases ho : applyOp op s with
    | none => rw [ho] at ha; exact absurd ha (by simp)
    | some s1 =>
      rw [ho] at ha
      obtain ⟨h1, hmono1⟩ := applyOp_good hg hseq.1 ho
      obtain ⟨h2, hmono2⟩ := ih s1 s' h1 (hseq.2 s1 ho) ha
      exact ⟨h2, le_trans hmono1 hmono2⟩


/-! ## Part 2: the task layer (`oroboro.py`) -/

/-- An `Event`: the waiter dict (keys in insertion order; Python compares
the `do_it` bound methods by function and receiver, so waiters are
identified by the owning reason), the last posted value, and the post
counter.  `isObserver` records membership in the `ObserverEvent`
subclass. -/
structure EventS where
  waiters : List Nat
  val : Option Int
  count : Nat
  isObserver : Bool
  id : Nat
deriving DecidableEq, Repr

/-- `Event.__init__`. -/
def Event.init (isObs : Bool) (eid : Nat) : EventS :=
  ⟨[], none, 0, isObs, eid⟩

/-- `Event.addwaiter`: `if w not in self.waiters: self.waiters[w] = None`. -/
def Event.addwaiter (w : Nat) (e : EventS) : EventS :=
  if w ∈ e.waiters then e else { e with waiters := e.waiters ++ [w] }

/-- `Event.removewaiter`: `del self.waiters[w]`, which raises `KeyError`
when `w` is not a key. -/
def Event.removewaiter (w : Nat) (e : EventS) : Except Unit EventS :=
  if w ∈ e.waiters then
    Except.ok { e with waiters := e.waiters.filter (fun x => x ≠ w) }
  else
    Except.error ()

/-- `Event.post(val)`: bump `count`, store `val`, snapshot the waiter dict
(`wcopy = self.waiters.copy()`, the 2025 fix) and invoke each waiter of
the snapshot in order.  A waiter invocation is modelled by its effect on
the waiter set — the interference the claim quantifies over (waiters may
be added or removed while the snapshot is walked).  Returns the new event
state and the snapshot that was invoked. -/
def Event.post (eff : Nat → List Nat → List Nat) (v : Int) (e : EventS) :
    EventS × List Nat :=
  let e1 := { e with count := e.count + 1, val := some v }
  let wcopy := e1.waiters
  (wcopy.foldl (fun acc w => { acc with waiters := eff w acc.waiters }) e1,
   wcopy)

/-- A sequence of `post` calls, each with its own waiter interference. -/
def Event.postSeq :
    List ((Nat → List Nat → List Nat) × Int) → EventS → EventS
  | [], e => e
  | p :: ps, e => Event.postSeq ps (Event.post p.1 p.2 e).1

/-- Python's `isinstance(Event, ObserverEvent)` exactly as written in
`Oroboro.post` and `Oroboro.post_at`: the first argument is the class
object `Event` itself rather than the instance `ev`, and the class object
is not an instance of `ObserverEvent`, so the expression evaluates to
`False` on every call. -/
def isinstance_Event_ObserverEvent : Bool := false

/-- `Oroboro.post(ev)` (the `assert isinstance(ev, Event)` holds for every
`EventS`). -/
def Oroboro.post (ev : EventS) (s : LoopState) : LoopState :=
  if isinstance_Event_ObserverEvent then
    call_observer_now (Cb.oro (OroTag.postEvent ev.id) Cb.nil) s
  else
    call_now (Cb.oro (OroTag.postEvent ev.id) Cb.nil) s

/-- `Oroboro.post_at(t, ev)`. -/
def Oroboro.post_at (t : Time) (ev : EventS) (s : LoopState) : LoopState :=
  if isinstance_Event_ObserverEvent then
    call_observer_at t (Cb.oro (OroTag.postEvent ev.id) Cb.nil) s
  else
    call_at t (Cb.oro (OroTag.postEvent ev.id) Cb.nil) s

/-- The state a bare `Reason` carries: the `cancelled` flag (`None`/`1` in
Python) and whether `task` is still attached. -/
structure ReasonCore where
  cancelled : Bool
  hasTask : Bool
deriving DecidableEq, Repr

/-- `Reason.__init__`. -/
def Reason.init : ReasonCore := ⟨false, true⟩

/-- `Reason.cancel_it`: `self.cancelled = 1; self.task = None`. -/
def Reason.cancel_it (_ : ReasonCore) : ReasonCore := ⟨true, false⟩

/-- A `Timeout` reason. -/
structure TimeoutS where
  interval : Time
  core : ReasonCore
deriving DecidableEq, Repr

/-- `Timeout.cancel_it`: just `Reason.cancel_it` — the loop handle stays
queued and `Timeout.callback` checks the flag when it fires. -/
def Timeout.cancel_it (t : TimeoutS) : TimeoutS :=
  { t with core := Reason.cancel_it t.core }

/-- A `WaitEvent` reason with the event it waits on.  `selfId` identifies
this reason's `self.do_it` bound method inside `ev.waiters`. -/
structure WaitEventS where
  ev : EventS
  core : ReasonCore
  selfId : Nat
deriving DecidableEq, Repr

/-- `WaitEvent.schedule_it`: `self.ev.addwaiter(self.do_it)` then
`Reason.schedule_it` (which raises on a cancelled reason). -/
def WaitEvent.schedule_it (w : WaitEventS) : Except Unit WaitEventS :=
  let w1 := { w with ev := Event.addwaiter w.selfId w.ev }
  if w1.core.cancelled then Except.error () else Except.ok w1

/-- `WaitEvent.cancel_it`: `self.ev.removewaiter(self.do_it)` — a
`KeyError` from `removewaiter` propagates — then `Reason.cancel_it`. -/
def WaitEvent.cancel_it (w : WaitEventS) : Except Unit WaitEventS :=
  match Event.removewaiter w.selfId w.ev with
  | Except.error e => Except.error e
  | Except.ok ev1 =>
      Except.ok { w with ev := ev1, core := Reason.cancel_it w.core }

/-- `Task.addwaiter` on the waited task's waiter dict. -/
def Task.addwaiter (w : Nat) (l : List Nat) : List Nat :=
  if w ∈ l then l else l ++ [w]

/-- `Task.removewaiter`: `del self.waiters[w]`. -/
def Task.removewaiter (w : Nat) (l : List Nat) : Except Unit (List Nat) :=
  if w ∈ l then Except.ok (l.filter (fun x => x ≠ w)) else Except.error ()

/-- A `Status` reason with the waiter dict of the task it watches. -/
structure StatusS where
  taskWaiters : List Nat
  core : ReasonCore
  selfId : Nat
deriving DecidableEq, Repr

/-- `Status.schedule_it`. -/
def Status.schedule_it (st : StatusS) : Except Unit StatusS :=
  let st1 := { st with taskWaiters := Task.addwaiter st.selfId st.taskWaiters }
  if st1.core.cancelled then Except.error () else Except.ok st1

/-- `Status.cancel_it`: `self.t.removewaiter(self.do_it)` then
`Reason.cancel_it`. -/
def Status.cancel_it (st : StatusS) : Except Unit StatusS :=
  match Task.removewaiter st.selfId st.taskWaiters with
  | Except.error e => Except.error e
  | Except.ok l1 =>
      Except.ok { st with taskWaiters := l1, core := Reason.cancel_it st.core }

/-! ### One yield of a task (`Task.runstep` / `Reason.do_it`) -/

/-- The per-yield view of a task: the cancelled flags of the reasons of
the current yield, and how often the generator was re-entered for it. -/
structure TaskYield where
  reasonsCancelled : List Bool
  steps : Nat
deriving DecidableEq, Repr

/-- Events of the per-yield trace: a `cancel_it` on reason `i` of the
yield, or a re-entry of the generator (`next(self.g)`). -/
inductive TEv where
  | cancel (i : Nat)
  | genstep
deriving DecidableEq, Repr

/-- `Task.runstep` as it affects the current yield: cancel every reason of
the yield (`for r in self.reasons: r.cancel_it()`), empty `self.reasons`,
then re-enter the generator; the reasons obtained from the new yield are
fresh objects and belong to the next generation. -/
def runstepL (s : TaskYield) : TaskYield × List TEv :=
  (⟨s.reasonsCancelled.map (fun _ => true), s.steps + 1⟩,
   (List.range s.reasonsCancelled.length).map TEv.cancel ++ [TEv.genstep])

/-- `Reason.do_it` for reason `i` of the yield: `if self.cancelled:
return`, else step the task.  An index outside the yield means the fired
reason belongs elsewhere and does nothing to this yield. -/
def do_itL (s : TaskYield) (i : Nat) : TaskYield × List TEv :=
  if s.reasonsCancelled.getD i true then (s, []) else runstepL s

/-- Fire a sequence of reasons against one yield. -/
def fireSeq : List Nat → TaskYield → TaskYield × List TEv
  | [], s => (s, [])
  | i :: fires, s =>
    let r := do_itL s i
    let r2 := fireSeq fires r.1
    (r2.1, r.2 ++ r2.2)

/-- A fresh yield of `n` reasons, none cancelled, generator not re-entered. -/
def initYield (n : Nat) : TaskYield := ⟨List.replicate n false, 0⟩

/-! ### The generator-advancing phase of `Task.runstep` -/

/-- The kinds of reasons a task can yield. -/
inductive RKind where
  | noReason
  | timeout (interval : Time)
  | waitEvent (eid : Nat)
  | statusOf (tid : Nat)
deriving DecidableEq, Repr

/-- A value yielded by a task generator: a bare reason, a tuple of
reasons, or a list of reasons. -/
inductive Payload where
  | bare (r : RKind)
  | tupleOf (rs : List RKind)
  | listOf (rs : List RKind)
deriving DecidableEq, Repr

/-- `_listifyreasons`: a tuple becomes a list, a list stays, anything else
is wrapped in a singleton list. -/
def listifyreasons : Payload → List RKind
  | Payload.bare r => [r]
  | Payload.tupleOf rs => rs
  | Payload.listOf rs => rs

/-- The reason-acquisition phase of `Task.runstep`:
`rr = next(self.g)` followed by `while isinstance(rr, NoReason):
rr = next(self.g)` and `self.reasons = _listifyreasons(rr)`.  The
generator is its remaining yields; exhausting it raises `StopIteration`
(task exit).  Returns how many times `next` was called, and the obtained
reason list with the remaining script (`none` on exit). -/
def acquire : List Payload → Nat × Option (List RKind × List Payload)
  | [] => (1, none)
  | Payload.bare RKind.noReason :: rest =>
    let r := acquire rest
    (r.1 + 1, r.2)
  | p :: rest => (1, some (listifyreasons p, rest))

/-- What `schedule_it` of each reason kind does.  The base
`Reason.schedule_it` — all that `NoReason` has — schedules nothing. -/
inductive SchedEff where
  | noEffect
  | loopCallLater (d : Time)
  | evAddWaiter (eid : Nat)
  | taskAddWaiter (tid : Nat)
deriving DecidableEq, Repr

/-- The scheduling effect of `schedule_it` per reason kind:
`Timeout.schedule_it` → `loop.call_later`; `WaitEvent.schedule_it` →
`ev.addwaiter`; `Status.schedule_it` → `t.addwaiter`; `NoReason` inherits
the base `Reason.schedule_it`, which only traces. -/
def schedule_eff : RKind → SchedEff
  | RKind.noReason => SchedEff.noEffect
  | RKind.timeout d => SchedEff.loopCallLater d
  | RKind.waitEvent eid => SchedEff.evAddWaiter eid
  | RKind.statusOf tid => SchedEff.taskAddWaiter tid

/-! ### Tasks and `Oroboro.start` -/

inductive TStatus where
  | born
  | running
  | waiting
  | exited
  | killed
deriving DecidableEq, Repr

/-- A task: the generator (`None` until the kicker runs), the generator
function with its pending yields, the status, the result (set to `0` in
`Task.__init__` and never reassigned anywhere in the module), and the
current reasons. -/
structure TaskS where
  g : Option (List Payload)
  fn : List Payload
  status : TStatus
  result : Int
  reasons : List RKind
deriving DecidableEq, Repr

/-- The task-state part of `Task.__init__`: status `BORN`, `result = 0`,
no generator, no reasons. -/
def Task.init (fn : List Payload) : TaskS :=
  ⟨none, fn, TStatus.born, 0, []⟩

/-- `Task.kickoff`: `self.khandle = loop.call_now(self.kicker, ...)` on the
module-global loop. -/
def Task.kickoff (tid : Nat) (s : LoopState) : LoopState :=
  call_now (Cb.oro (OroTag.kicker tid) Cb.nil) s

/-- `Task.runstep` on the task state: cancel and clear the old reasons, set
RUNNING, advance the generator (skipping bare `NoReason`s), then record
the new reasons (WAITING) or exit on `StopIteration` (EXITED). -/
def Task.runstep (t : TaskS) : TaskS :=
  match t.g with
  | none => t
  | some script =>
    let t1 := { t with reasons := [], status := TStatus.running }
    match (acquire script).2 with
    | none => { t1 with status := TStatus.exited, g := none }
    | some (rs, rest) =>
        { t1 with reasons := rs, status := TStatus.waiting, g := some rest }

/-- `Task.kicker`: create the generator from `self.fn` and run to the
first yield. -/
def Task.kicker (t : TaskS) : TaskS :=
  Task.runstep { t with g := some t.fn }

/-- `Oroboro.start(userfn)`: create the root task, create the user task —
whose `__init__` only schedules its kicker on the global loop — and return
`int(t.result)`. -/
def Oroboro.start (fn : List Payload) (s : LoopState) :
    LoopState × TaskS × Int :=
  let t := Task.init fn
  (Task.kickoff 1 s, t, t.result)

/-! ### Sessions and the module-global loop (`Oroboro.__init__`) -/

/-- The world: every loop ever constructed, and the index the module-global
variable `loop` currently points at. -/
structure World where
  loops : List LoopState
  cur : Nat
deriving DecidableEq, Repr

/-- Apply an operation to the module-global loop. -/
def World.onCur (f : LoopState → LoopState) (w : World) : World :=
  { w with loops := w.loops.set w.cur (f (w.loops.getD w.cur initLoop)) }

/-- The session-level operations of `oroboro.py`.  `init` is
`Oroboro.__init__`, which rebinds the module-global `loop` to a fresh
`BaseLoop`; every other operation reads the global `loop`. -/
inductive WOp where
  | init
  | kickoff (tid : Nat)
  | timeoutSchedule (d : Time) (rid : Nat)
  | post (ev : EventS)
  | postAt (t : Time) (ev : EventS)
  | runUntil (fuel wfuel : Nat) (e : Time)
  | runForever (fuel wfuel : Nat)

/-- One session-level step.  The `run_*` operations leave the world
unchanged when the fuel bound is hit (the Python call would still be
running — either way no other loop is touched). -/
def wstep : WOp → World → World
  | WOp.init, w => { loops := w.loops ++ [initLoop], cur := w.loops.length }
  | WOp.kickoff tid, w => World.onCur (Task.kickoff tid) w
  | WOp.timeoutSchedule d rid, w =>
      World.onCur (call_later d (Cb.oro (OroTag.timeoutCb rid) Cb.nil)) w
  | WOp.post ev, w => World.onCur (Oroboro.post ev) w
  | WOp.postAt t ev, w => World.onCur (Oroboro.post_at t ev) w
  | WOp.runUntil fuel wfuel e, w =>
      World.onCur (fun s => (run_until fuel wfuel e s).getD s) w
  | WOp.runForever fuel wfuel, w =>
      World.onCur (fun s => (run_forever fuel wfuel s).getD s) w

def runWOps : List WOp → World → World
  | [], w => w
  | op :: ops, w => runWOps ops (wstep op w)


theorem getD_set_ne_generic {α : Type} {l : List α} {i j : Nat}
    (a d : α) (h : i ≠ j) : (l.set i a).getD j d = l.getD j d := by
  simp [List.getD_eq_getElem?_getD, List.getElem?_set_ne h]

theorem getD_append_left_generic {α : Type} {l l2 : List α} {j : Nat}
    (d : α) (h : j < l.length) : (l ++ l2).getD j d = l.getD j d := by
  simp [List.getD_eq_getElem?_getD, List.getElem?_append, h]

theorem post_foldl_fields (eff : Nat → List Nat → List Nat)
    (ws : List Nat) :
    ∀ acc : EventS,
      ((ws.foldl (fun acc w => { acc with waiters := eff w acc.waiters })
          acc).count = acc.count) ∧
      ((ws.foldl (fun acc w => { acc with waiters := eff w acc.waiters })
          acc).val = acc.val) := by
  induction ws with
  | nil => intro acc; exact ⟨rfl, rfl⟩
  | cons x xs ih =>
    intro acc
    exact ⟨(ih _).1, (ih _).2⟩

theorem Event.post_fields (eff : Nat → List Nat → List Nat) (v : Int)
    (e : EventS) :
    (Event.post eff v e).1.count = e.count + 1 ∧
    (Event.post eff v e).1.val = some v ∧
    (Event.post eff v e).2 = e.waiters := by
  refine ⟨?_, ?_, rfl⟩
  · exact (post_foldl_fields eff e.waiters _).1
  · exact (post_foldl_fields eff e.waiters _).2

theorem Event.postSeq_count
    (ps : List ((Nat → List Nat → List Nat) × Int)) :
    ∀ e : EventS, (Event.postSeq ps e).count = e.count + ps.length := by
  induction ps with
  | nil => intro e; rfl
  | cons p ps ih =>
    intro e
    rw [Event.postSeq, ih, (Event.post_fields p.1 p.2 e).1]
    simp only [List.length_cons]
    omega

theorem getD_replicate_true (k i : Nat) :
    (List.replicate k true).getD i true = true := by
  rw [List.getD_eq_getElem?_getD, List.getElem?_replicate]
  split <;> rfl

theorem fireSeq_absorb (fires : List Nat) :
    ∀ (k m : Nat), fireSeq fires ⟨List.replicate k true, m⟩ =
      (⟨List.replicate k true, m⟩, []) := by
  induction fires with
  | nil => intro k m; rfl
  | cons i fires ih =>
    intro k m
    rw [fireSeq]
    have hd : do_itL ⟨List.replicate k true, m⟩ i =
        (⟨List.replicate k true, m⟩, []) := by
      unfold do_itL
      rw [if_pos (getD_replicate_true k i)]
    rw [hd, ih k m]
    simp

theorem Task.runstep_result (t : TaskS) :
    (Task.runstep t).result = t.result := by
  unfold Task.runstep
  split
  · rfl
  · split
    · rfl
    · rfl

theorem Task.kicker_result (t : TaskS) :
    (Task.kicker t).result = t.result := by
  unfold Task.kicker
  rw [Task.runstep_result]

theorem runWOps_stable (ops : List WOp) :
    ∀ (w : World) (k : Nat), k ≤ w.cur → k ≤ w.loops.length →
      ∀ j, j < k →
        (runWOps ops w).loops.getD j initLoop = w.loops.getD j initLoop := by
  induction ops with
  | nil => intro w k h1 h2 j hj; rfl
  | cons op ops ih =>
    intro w k h1 h2 j hj
    show (runWOps ops (wstep op w)).loops.getD j initLoop =
      w.loops.getD j initLoop
    have honcur : ∀ (f : LoopState → LoopState),
        (runWOps ops (World.onCur f w)).loops.getD j initLoop =
          w.loops.getD j initLoop := by
      intro f
      have hstep := ih (World.onCur f w) k h1
        (by simpa [World.onCur] using h2) j hj
      rw [hstep]
      exact getD_set_ne_generic _ _ (by omega)
    cases op with
    | init =>
      have hstep := ih { loops := w.loops ++ [initLoop], cur := w.loops.length } k (by simpa using h2) (by simp; omega) j hj
      rw [show wstep WOp.init w = { loops := w.loops ++ [initLoop], cur := w.loops.length } from rfl, hstep]
      exact getD_append_left_generic _ (by omega)
    | kickoff tid => exact honcur _
    | timeoutSchedule d rid => exact honcur _
    | post ev => exact honcur _
    | postAt t ev => exact honcur _
    | runUntil f wf e => exact honcur _
    | runForever f wf => exact honcur _

theorem extGood_initLoop : ExtGood initLoop := by
  refine ⟨⟨?_, ?_, ?_, ?_, ?_, ?_⟩, rfl⟩
  · intro i hi h0i
    simp [initLoop] at hi
  · intro h hm
    simp [initLoop] at hm
  · intro h hm
    simp [initLoop] at hm
  · intro h hm
    simp [initLoop] at hm
  · intro h hm
    simp [initLoop] at hm
  · intro h hm
    simp [initLoop] at hm


/-! ## The claims -/

/-- C1: the claim states that `Oroboro.post`/`post_at` dispatch on the
event instance — Observer scheduling for an `ObserverEvent` — but the code
tests `isinstance(Event, ObserverEvent)` on the class object, which is
always `False`, so even an `ObserverEvent` instance is posted through
`call_now`/`call_at` and its waiters run as a plain normal handle, not in
the observer phase. -/
theorem post_ObserverEvent_misdispatched (ev : EventS) (s : LoopState)
    (t : Time) (hobs : ev.isObserver = true) :
    Oroboro.post ev s = call_now (Cb.oro (OroTag.postEvent ev.id) Cb.nil) s ∧
    Oroboro.post_at t ev s =
      call_at t (Cb.oro (OroTag.postEvent ev.id) Cb.nil) s ∧
    (Oroboro.post ev s).ready.getLast? =
      some ⟨s.now, HKind.normal, Cb.oro (OroTag.postEvent ev.id) Cb.nil,
        s.nextId⟩ := by
  refine ⟨rfl, rfl, ?_⟩
  show (s.ready ++ [_]).getLast? = _
  rw [List.getLast?_concat]

theorem post_ObserverEvent_misdispatched_witness :
    (Event.init true 1).isObserver = true ∧
    Oroboro.post (Event.init true 1) initLoop =
      call_now (Cb.oro (OroTag.postEvent 1) Cb.nil) initLoop :=
  ⟨rfl,
    (post_ObserverEvent_misdispatched (Event.init true 1) initLoop 0 rfl).1⟩

/-- The loop state after `call_at(2, cb)`, `call_at(2, cb)`, `call_at(1, cb)`
on a fresh loop: handles with ids 0, 1, 2. -/
def c2state : LoopState :=
  call_at 1 Cb.nil (call_at 2 Cb.nil (call_at 2 Cb.nil initLoop))

/-- C2 counterexample: after scheduling at times 2, 2, 1 (handle ids 0, 1,
2), the heap pops in order (1,2), (2,1), (2,0): the second and third pops
have equal `when` but the larger id 1 pops before the smaller id 0, so the
pop order is not lexicographic in `(when, id)` and the smaller id does not
run first on a tie. -/
theorem pop_order_ignores_id_counterexample :
    (popAll c2state.scheduled).map (fun h => (h.when, h.id)) =
      [(1, 2), (2, 1), (2, 0)] ∧
    ((popAll c2state.scheduled).getD 1 default).when =
      ((popAll c2state.scheduled).getD 2 default).when ∧
    ((popAll c2state.scheduled).getD 2 default).id <
      ((popAll c2state.scheduled).getD 1 default).id := by
  have he : c2state.scheduled = [⟨1, HKind.normal, Cb.nil, 2⟩,
      ⟨2, HKind.normal, Cb.nil, 1⟩, ⟨2, HKind.normal, Cb.nil, 0⟩] := by
    simp [c2state, call_at, initLoop, heappush, siftdownAux, hlt]
  have heval : popAll c2state.scheduled = [⟨1, HKind.normal, Cb.nil, 2⟩,
      ⟨2, HKind.normal, Cb.nil, 1⟩, ⟨2, HKind.normal, Cb.nil, 0⟩] := by
    rw [he]
    simp [popAll_eq, heappop, siftupAux, siftdownAux, hlt]
  rw [heval]
  exact ⟨rfl, rfl, by decide⟩

/-- C2 (amended): handles pop from the scheduled heap in non-decreasing
`when` order (`Handle.__lt__` compares `when` only); ties in `when` are
resolved by the heap's array layout, not by handle id. -/
theorem pop_order_nondecreasing_when :
    (∀ l : List Handle, IsHeap l →
      (popAll l).Pairwise fun h1 h2 => h1.when ≤ h2.when) ∧
    (∀ (t : Time) (cb : Cb) (s : LoopState), IsHeap s.scheduled →
      IsHeap (call_at t cb s).scheduled) := by
  constructor
  · intro l hl
    exact (popAll_spec l.length l (le_refl _) hl).1
  · intro t cb s hs
    exact heappush_isHeap hs _

theorem pop_order_nondecreasing_when_witness :
    IsHeap c2state.scheduled ∧
    ((popAll c2state.scheduled).Pairwise fun h1 h2 => h1.when ≤ h2.when) := by
  have he : c2state.scheduled = [⟨1, HKind.normal, Cb.nil, 2⟩,
      ⟨2, HKind.normal, Cb.nil, 1⟩, ⟨2, HKind.normal, Cb.nil, 0⟩] := by
    simp [c2state, call_at, initLoop, heappush, siftdownAux, hlt]
  have hh : IsHeap c2state.scheduled := by
    rw [he]
    decide
  exact ⟨hh, pop_order_nondecreasing_when.1 c2state.scheduled hh⟩

/-- C3: for one yield of a task, any sequence of reason firings re-enters
the generator at most once, and when it does, every reason of the yield
receives its `cancel_it` before the generator is re-entered (the trace is
exactly the cancels of reasons `0..n-1` followed by one `genstep`). -/
theorem reasons_fire_at_most_once (n : Nat) (fires : List Nat) :
    (fireSeq fires (initYield n)).1.steps ≤ 1 ∧
    ((fireSeq fires (initYield n)).2 = [] ∨
      (fireSeq fires (initYield n)).2 =
        (List.range n).map TEv.cancel ++ [TEv.genstep]) := by
  induction fires with
  | nil => exact ⟨by simp [fireSeq, initYield], Or.inl rfl⟩
  | cons i fires ih =>
    by_cases hi : (List.replicate n false).getD i true = true
    · have hd : do_itL (initYield n) i = (initYield n, []) := by
        unfold do_itL initYield
        rw [if_pos hi]
      refine ⟨?_, ?_⟩
      · show (fireSeq fires (do_itL (initYield n) i).1).1.steps ≤ 1
        rw [hd]
        exact ih.1
      · show ((do_itL (initYield n) i).2 ++
            (fireSeq fires (do_itL (initYield n) i).1).2 = []) ∨
          ((do_itL (initYield n) i).2 ++
            (fireSeq fires (do_itL (initYield n) i).1).2 =
            (List.range n).map TEv.cancel ++ [TEv.genstep])
        rw [hd]
        exact ih.2
    · have hd : do_itL (initYield n) i = runstepL (initYield n) := by
        unfold do_itL initYield
        rw [if_neg hi]
      have hrs1 : (runstepL (initYield n)).1 = ⟨List.replicate n true, 1⟩ := by
        simp [runstepL, initYield, List.map_replicate]
      have hrs2 : (runstepL (initYield n)).2 =
          (List.range n).map TEv.cancel ++ [TEv.genstep] := by
        simp [runstepL, initYield]
      refine ⟨?_, Or.inr ?_⟩
      · show (fireSeq fires (do_itL (initYield n) i).1).1.steps ≤ 1
        rw [hd, hrs1, fireSeq_absorb]
      · show (do_itL (initYield n) i).2 ++
          (fireSeq fires (do_itL (initYield n) i).1).2 =
          (List.range n).map TEv.cancel ++ [TEv.genstep]
        rw [hd, hrs1, hrs2, fireSeq_absorb]
        simp

/-- C4: within one `run_once` time-step, every normal handle that runs does
so strictly before every observer handle that runs: the execution trace
splits into a normal-only prefix (the ready waves) followed by an
observer-only suffix (the deferred-observer pass). -/
theorem normal_handles_run_before_observer_handles {fuel : Nat} {e : Time}
    {s s' : LoopState} {popped : List Handle} {tr : List RunEv}
    (hobs : ∀ h ∈ s.observers, h.kind = HKind.observer)
    (hrun : run_once fuel e s = some (s', popped, tr)) :
    ∃ a b, tr = a ++ b ∧ (∀ ev ∈ a, ev.kind = HKind.normal) ∧
      (∀ ev ∈ b, ev.kind = HKind.observer) :=
  run_once_phase_split hobs hrun

theorem normal_handles_run_before_observer_handles_witness :
    (∀ h ∈ (⟨0, [], [⟨0, HKind.normal, Cb.nil, 0⟩,
        ⟨0, HKind.observer, Cb.nil, 1⟩], [], 2, []⟩ :
        LoopState).observers, h.kind = HKind.observer) ∧
    (∃ a b, ([⟨0, HKind.normal, 0⟩, ⟨1, HKind.observer, 0⟩] : List RunEv) =
      a ++ b ∧ (∀ ev ∈ a, ev.kind = HKind.normal) ∧
      (∀ ev ∈ b, ev.kind = HKind.observer)) := by
  refine ⟨by simp, ?_⟩
  have hrun : run_once 2 0 (⟨0, [], [⟨0, HKind.normal, Cb.nil, 0⟩,
      ⟨0, HKind.observer, Cb.nil, 1⟩], [], 2, []⟩ : LoopState) =
      some (⟨0, [], [], [], 2, []⟩, [],
        [⟨0, HKind.normal, 0⟩, ⟨1, HKind.observer, 0⟩]) := by
    simp [run_once, drain_eq, heappop, wavesLoop, runWave, runCb,
      runObservers, runOWave]
  exact normal_handles_run_before_observer_handles (by simp) hrun

def c5w0 : WaitEventS := ⟨Event.init false 1, Reason.init, 7⟩

def c5w1 : WaitEventS := ⟨⟨[7], none, 0, false, 1⟩, ⟨false, true⟩, 7⟩

def c5w2 : WaitEventS := ⟨⟨[], none, 0, false, 1⟩, ⟨true, false⟩, 7⟩

/-- C5 counterexample: schedule a `WaitEvent`, cancel it once (fine), then
cancel it again: `cancel_it` unconditionally does
`self.ev.removewaiter(self.do_it)`, i.e. `del self.waiters[w]`, which
raises `KeyError` because the waiter was already removed — the second
cancel does not succeed. -/
theorem waitevent_double_cancel_raises :
    WaitEvent.schedule_it c5w0 = Except.ok c5w1 ∧
    WaitEvent.cancel_it c5w1 = Except.ok c5w2 ∧
    WaitEvent.cancel_it c5w2 = Except.error () := by
  exact ⟨rfl, rfl, rfl⟩

/-- C5 (amended): `cancel_it` is idempotent for `Timeout` (it only sets the
flag), but for `WaitEvent` and `Status` a second cancel always raises
`KeyError`, because the first cancel removed `do_it` from the waiter dict
and `removewaiter` deletes unconditionally. -/
theorem cancel_idempotency_varies_by_reason :
    (∀ t : TimeoutS,
      Timeout.cancel_it (Timeout.cancel_it t) = Timeout.cancel_it t) ∧
    (∀ w w' : WaitEventS, WaitEvent.cancel_it w = Except.ok w' →
      WaitEvent.cancel_it w' = Except.error ()) ∧
    (∀ st st' : StatusS, Status.cancel_it st = Except.ok st' →
      Status.cancel_it st' = Except.error ()) := by
  refine ⟨fun t => rfl, ?_, ?_⟩
  · intro w w' h
    unfold WaitEvent.cancel_it Event.removewaiter at h
    by_cases hm : w.selfId ∈ w.ev.waiters
    · rw [if_pos hm] at h
      replace h : Except.ok { w with ev := { w.ev with waiters := w.ev.waiters.filter (fun x => x ≠ w.selfId) }, core := Reason.cancel_it w.core } = Except.ok w' := h
      simp only [Except.ok.injEq] at h
      subst h
      unfold WaitEvent.cancel_it Event.removewaiter
      rw [if_neg]
      simp [List.mem_filter]
    · rw [if_neg hm] at h
      replace h : (Except.error () : Except Unit WaitEventS) =
        Except.ok w' := h
      exact absurd h (by simp)
  · intro st st' h
    unfold Status.cancel_it Task.removewaiter at h
    by_cases hm : st.selfId ∈ st.taskWaiters
    · rw [if_pos hm] at h
      replace h : Except.ok { st with taskWaiters := st.taskWaiters.filter (fun x => x ≠ st.selfId), core := Reason.cancel_it st.core } = Except.ok st' := h
      simp only [Except.ok.injEq] at h
      subst h
      unfold Status.cancel_it Task.removewaiter
      rw [if_neg]
      simp [List.mem_filter]
    · rw [if_neg hm] at h
      replace h : (Except.error () : Except Unit StatusS) =
        Except.ok st' := h
      exact absurd h (by simp)

theorem cancel_idempotency_varies_by_reason_witness :
    Timeout.cancel_it (Timeout.cancel_it ⟨5, Reason.init⟩) =
      Timeout.cancel_it ⟨5, Reason.init⟩ ∧
    WaitEvent.cancel_it c5w1 = Except.ok c5w2 ∧
    WaitEvent.cancel_it c5w2 = Except.error () :=
  ⟨cancel_idempotency_varies_by_reason.1 ⟨5, Reason.init⟩, rfl,
    cancel_idempotency_varies_by_reason.2.1 c5w1 c5w2 rfl⟩

/-- C6 counterexample: two successive `run_once` calls — public loop
operations — with endtimes 5 then 3 on a fresh loop: the closing
`self.now = endtime` of the second call assigns 3 after `now` was 5, so
`now` decreases. -/
theorem now_decreases_counterexample :
    run_once 1 5 initLoop = some (⟨5, [], [], [], 0, []⟩, [], []) ∧
    run_once 1 3 ⟨5, [], [], [], 0, []⟩ =
      some (⟨3, [], [], [], 0, []⟩, [], []) ∧
    ¬ ((5 : Time) ≤ 3) := by
  refine ⟨?_, ?_, by decide⟩
  · simp [run_once, drain_eq, heappop, wavesLoop, runObservers, runOWave,
      initLoop]
  · simp [run_once, drain_eq, heappop, wavesLoop, runObservers, runOWave]

/-- C6 (amended): `now` never decreases across sequences of the public
loop operations provided they are well-behaved: handles are only scheduled
at the current time or later (non-negative delays, tame callbacks), and a
direct `run_once(endtime)` neither lies in the past nor jumps over pending
events — `run_until`/`run_forever` guarantee this by always passing
`next_when()`.  Under these conditions every assignment to `now` during
draining and the final `now = endtime` is non-decreasing. -/
theorem now_monotone_under_wellbehaved_ops :
    (∀ (ops : List LoopOp) (s s' : LoopState), ExtGood s → GoodSeq ops s →
      applySeq ops s = some s' → s.now ≤ s'.now) ∧
    (∀ (fuel : Nat) (e : Time) (s s' : LoopState) (popped : List Handle)
      (tr : List RunEv), ExtGood s → s.now ≤ e →
      (∀ h ∈ s.scheduled, e ≤ h.when) → (s.ready ≠ [] → e = s.now) →
      run_once fuel e s = some (s', popped, tr) →
      s'.now = e ∧
      List.Chain' (· ≤ ·) ((s.now :: popped.map Handle.when) ++ [e])) := by
  constructor
  · intro ops s s' hg hseq ha
    exact (applySeq_good ops s s' hg hseq ha).2
  · intro fuel e s s' popped tr hg h1 h2 h3 hrun
    obtain ⟨_, _, hna, hch⟩ := run_once_spec hg.1 hg.2 h1 h2 h3 hrun
    exact ⟨hna, hch⟩

theorem now_monotone_under_wellbehaved_ops_witness :
    ExtGood initLoop ∧
    GoodSeq [LoopOp.opCallLater 5 Cb.nil] initLoop ∧
    applySeq [LoopOp.opCallLater 5 Cb.nil] initLoop =
      some (call_later 5 Cb.nil initLoop) ∧
    initLoop.now ≤ (call_later 5 Cb.nil initLoop).now ∧
    run_once 1 0 initLoop = some (⟨0, [], [], [], 0, []⟩, [], []) ∧
    List.Chain' (· ≤ ·)
      ((initLoop.now :: ([] : List Handle).map Handle.when) ++ [0]) := by
  refine ⟨extGood_initLoop, ⟨⟨by norm_num, rfl⟩, fun s1 _ => trivial⟩, rfl,
    ?_, ?_, ?_⟩
  · exact now_monotone_under_wellbehaved_ops.1 [LoopOp.opCallLater 5 Cb.nil]
      initLoop (call_later 5 Cb.nil initLoop) extGood_initLoop
      ⟨⟨by norm_num, rfl⟩, fun s1 _ => trivial⟩ rfl
  · simp [run_once, drain_eq, heappop, wavesLoop, runObservers, runOWave,
      initLoop]
  · exact (now_monotone_under_wellbehaved_ops.2 1 0 initLoop
      ⟨0, [], [], [], 0, []⟩ [] [] extGood_initLoop (le_refl 0)
      (by simp [initLoop]) (fun hc => absurd rfl hc)
      (by simp [run_once, drain_eq, heappop, wavesLoop, runObservers,
        runOWave, initLoop])).2

/-- C7: each `Event.post` increments `count` by exactly one and stores the
posted value, whatever the invoked waiters do to the waiter set, so after
`M` posts `count` has grown by `M`; and the waiters invoked by a post are
exactly the snapshot of the waiter dict taken at the start of that post. -/
theorem event_post_count_and_snapshot :
    (∀ (ps : List ((Nat → List Nat → List Nat) × Int)) (e : EventS),
      (Event.postSeq ps e).count = e.count + ps.length) ∧
    (∀ (eff : Nat → List Nat → List Nat) (v : Int) (e : EventS),
      (Event.post eff v e).1.count = e.count + 1 ∧
      (Event.post eff v e).1.val = some v ∧
      (Event.post eff v e).2 = e.waiters) :=
  ⟨fun ps e => Event.postSeq_count ps e,
   fun eff v e => Event.post_fields eff v e⟩

/-- C8 counterexample: a task that yields the list `[NoReason()]` followed
by a real reason is NOT transparently re-entered: the stepper makes a
single `next` call, keeps the `NoReason` in the reason list, and never
reaches the next payload — unlike a bare `yield NoReason()`, which is
skipped with an immediate second `next` call. -/
theorem noReason_in_list_not_transparent :
    acquire [Payload.listOf [RKind.noReason],
      Payload.bare (RKind.timeout 5)] =
      (1, some ([RKind.noReason], [Payload.bare (RKind.timeout 5)])) ∧
    acquire [Payload.bare RKind.noReason, Payload.bare (RKind.timeout 5)] =
      (2, some ([RKind.timeout 5], [])) :=
  ⟨rfl, rfl⟩

/-- C8 (amended): only a bare yielded `NoReason` is transparent — the
stepper immediately re-enters the generator within the same step; a
`NoReason` inside a yielded tuple or list is kept as an element of the
reason list with a single `next` call.  In either case a `NoReason` is
never scheduled: its `schedule_it` is the base `Reason.schedule_it`, which
performs no scheduling. -/
theorem noReason_transparent_only_bare :
    (∀ rest : List Payload, acquire (Payload.bare RKind.noReason :: rest) =
      ((acquire rest).1 + 1, (acquire rest).2)) ∧
    (∀ (rs : List RKind) (rest : List Payload),
      acquire (Payload.listOf rs :: rest) = (1, some (rs, rest))) ∧
    (∀ (rs : List RKind) (rest : List Payload),
      acquire (Payload.tupleOf rs :: rest) = (1, some (rs, rest))) ∧
    schedule_eff RKind.noReason = SchedEff.noEffect :=
  ⟨fun rest => rfl, fun rs rest => rfl, fun rs rest => rfl, rfl⟩

/-- C9: `Oroboro.__init__` rebinds the module-global `loop`, so a new
session makes every subsequent kickoff, timeout scheduling, post and
`run_*` call operate on the newest loop; a non-`init` operation only
touches the loop the global currently points at, and after a new session
is constructed the loops of all earlier sessions — including their pending
handles — are never modified and never run again. -/
theorem sessions_share_module_global_loop :
    (∀ w : World, (wstep WOp.init w).cur = w.loops.length ∧
      (wstep WOp.init w).loops = w.loops ++ [initLoop]) ∧
    (∀ (op : WOp) (w : World) (k : Nat), op ≠ WOp.init → k ≠ w.cur →
      (wstep op w).loops.getD k initLoop = w.loops.getD k initLoop ∧
      (wstep op w).cur = w.cur) ∧
    (∀ (ops : List WOp) (w : World) (j : Nat), j < w.loops.length →
      (runWOps ops (wstep WOp.init w)).loops.getD j initLoop =
        w.loops.getD j initLoop) := by
  refine ⟨fun w => ⟨rfl, rfl⟩, ?_, ?_⟩
  · intro op w k hne hk
    cases op with
    | init => exact absurd rfl hne
    | kickoff tid =>
      exact ⟨getD_set_ne_generic _ _ (fun he => hk he.symm), rfl⟩
    | timeoutSchedule d rid =>
      exact ⟨getD_set_ne_generic _ _ (fun he => hk he.symm), rfl⟩
    | post ev =>
      exact ⟨getD_set_ne_generic _ _ (fun he => hk he.symm), rfl⟩
    | postAt t ev =>
      exact ⟨getD_set_ne_generic _ _ (fun he => hk he.symm), rfl⟩
    | runUntil f wf e =>
      exact ⟨getD_set_ne_generic _ _ (fun he => hk he.symm), rfl⟩
    | runForever f wf =>
      exact ⟨getD_set_ne_generic _ _ (fun he => hk he.symm), rfl⟩
  · intro ops w j hj
    have hstable := runWOps_stable ops (wstep WOp.init w) w.loops.length
      (le_refl _) (by simp [wstep]) j hj
    rw [hstable]
    exact getD_append_left_generic _ hj

theorem sessions_share_module_global_loop_witness :
    (WOp.kickoff 1 ≠ WOp.init) ∧
    ((1 : Nat) ≠ (⟨[initLoop], 0⟩ : World).cur) ∧
    ((0 : Nat) < (⟨[initLoop], 0⟩ : World).loops.length) ∧
    (runWOps [WOp.kickoff 1]
        (wstep WOp.init ⟨[initLoop], 0⟩)).loops.getD 0 initLoop =
      (⟨[initLoop], 0⟩ : World).loops.getD 0 initLoop := by
  refine ⟨by simp, by simp, by simp, ?_⟩
  exact sessions_share_module_global_loop.2.2 [WOp.kickoff 1]
    ⟨[initLoop], 0⟩ 0 (by simp)

/-- C10: `Oroboro.start(userfn)` returns `int(t.result) = 0` without
executing any of `userfn`: at return the new task is `BORN`, its generator
has not been created, and only the kicker callback was queued with
`call_now`; moreover `result` is assigned only in `Task.__init__`, so it
stays 0 through the kicker and any number of later steps. -/
theorem start_returns_zero_and_defers_task :
    (∀ (fn : List Payload) (s : LoopState),
      (Oroboro.start fn s).2.2 = 0 ∧
      (Oroboro.start fn s).2.1.status = TStatus.born ∧
      (Oroboro.start fn s).2.1.g = none ∧
      (Oroboro.start fn s).1 =
        call_now (Cb.oro (OroTag.kicker 1) Cb.nil) s) ∧
    (∀ (t : TaskS) (k : Nat),
      (Task.runstep^[k] (Task.kicker t)).result = t.result) := by
  constructor
  · intro fn s
    exact ⟨rfl, rfl, rfl, rfl⟩
  · intro t k
    induction k with
    | zero => exact Task.kicker_result t
    | succ k ih =>
      rw [Function.iterate_succ_apply', Task.runstep_result]
      exact ih

end Oroboro
